import Mathlib

/-!
Shallow embedding of the Minesweeper engine
(`src/utils/gameUtils.ts`, `src/core/GameEngine.ts`, `src/hooks/useGameState.ts`),
with the parts of `src/core/game.ts` that are absent from the sources modelled
from the specification (each such definition is marked in its doc comment).

Boards are lists of rows of cells, indexed `board[y][x]` as in the source.
`Math.random`-driven draws are modelled by an explicit finite list of
`(x, y)` pairs; exhausting the list of draws before the mine-placement loop
finishes is modelled by `Option.none` (the TypeScript loop would keep
spinning on its endless random stream).
-/

namespace Minesweeper

/-- `CellData` of `src/models/types`: coordinates, three flags and the
adjacent-mine counter. -/
structure CellData where
  x : Nat
  y : Nat
  isMine : Bool
  isRevealed : Bool
  isFlagged : Bool
  adjacentMines : Nat
  deriving Repr, DecidableEq

/-- `BoardConfig` of `src/models/types`. -/
structure BoardConfig where
  rows : Nat
  columns : Nat
  mines : Nat
  deriving Repr, DecidableEq

/-- A board is a list of rows of cells, accessed `board[y][x]`. -/
abbrev Board := List (List CellData)

/-- Stand-in cell produced by out-of-bounds reads (the TypeScript code never
performs them on the inputs the claims range over). -/
def defaultCell : CellData :=
  { x := 0, y := 0, isMine := false, isRevealed := false, isFlagged := false, adjacentMines := 0 }

/-- `board[y][x]`. -/
def cellAt (b : Board) (x y : Nat) : CellData :=
  (b.getD y []).getD x defaultCell

/-- Apply `f` to the element at index `n`, if any (the building block for
single-cell board updates). -/
def updateNth (f : α → α) : Nat → List α → List α
  | _, [] => []
  | 0, c :: cs => f c :: cs
  | n + 1, c :: cs => c :: updateNth f n cs

/-- Apply `f` to the cell `board[y][x]`, if it exists. -/
def updateCell (b : Board) (x y : Nat) (f : CellData → CellData) : Board :=
  updateNth (fun row => updateNth f x row) y b

/-- The list `[a, a+1, ..., b]` (empty when `b < a`), mirroring the
`for (i = a; i <= b; i++)` loops of the source. -/
def rangeIncl (a b : Nat) : List Nat :=
  (List.range (b + 1 - a)).map (a + ·)

/-- The 3×3 neighborhood of `(x, y)` clipped to a `rows × cols` grid,
*including* `(x, y)` itself, enumerated exactly like the nested
`for (y = max(0, y-1); y <= min(rows-1, y+1); ...)` loops used by the source
both for the safe zone and for the adjacency/cascade scans.
Nat subtraction `y - 1` coincides with the source's `Math.max(0, y - 1)`. -/
def boxCoords (rows cols x y : Nat) : List (Nat × Nat) :=
  (rangeIncl (y - 1) (min (rows - 1) (y + 1))).flatMap fun ny =>
    (rangeIncl (x - 1) (min (cols - 1) (x + 1))).map fun nx => (nx, ny)

/-- `initializeBoard` of `gameUtils.ts`. -/
def initializeBoard (config : BoardConfig) : Board :=
  (List.range config.rows).map fun y =>
    (List.range config.columns).map fun x =>
      { x := x, y := y, isMine := false, isRevealed := false, isFlagged := false,
        adjacentMines := 0 }

/-- The body of the eligible branch of the `placeMines` loop: mark `(x, y)` as a
mine and increment `adjacentMines` on every in-bounds cell of its 3×3 box —
including, as in the source (`dy = 0, dx = 0` is not skipped), the cell itself. -/
def placeMineAt (b : Board) (cfg : BoardConfig) (x y : Nat) : Board :=
  (boxCoords cfg.rows cfg.columns x y).foldl
    (fun acc p => updateCell acc p.1 p.2 fun c => { c with adjacentMines := c.adjacentMines + 1 })
    (updateCell b x y fun c => { c with isMine := true })

/-- The `while (minesPlaced < mines)` loop of `placeMines`, consuming an
explicit list of random draws; `none` models exhausting the finite draw list
while the TypeScript loop would keep drawing. -/
def placeMinesLoop (cfg : BoardConfig) (sz : List (Nat × Nat)) :
    List (Nat × Nat) → Board → Nat → Option Board
  | [], b, placed => if cfg.mines ≤ placed then some b else none
  | d :: rest, b, placed =>
    if cfg.mines ≤ placed then some b
    else if (cellAt b d.1 d.2).isMine = false ∧ d ∉ sz then
      placeMinesLoop cfg sz rest (placeMineAt b cfg d.1 d.2) (placed + 1)
    else
      placeMinesLoop cfg sz rest b placed

/-- `placeMines` of `gameUtils.ts` with the random stream made explicit.
The string-keyed safe zone `"x,y"` is modelled by the coordinate pairs
themselves (the key encoding is injective on naturals). -/
def placeMines (b : Board) (cfg : BoardConfig) (firstClickX firstClickY : Nat)
    (draws : List (Nat × Nat)) : Option Board :=
  placeMinesLoop cfg (boxCoords cfg.rows cfg.columns firstClickX firstClickY) draws b 0

/-- Number of cells satisfying `P`, summed over the rows. -/
def countCells (P : CellData → Bool) (b : Board) : Nat :=
  (b.map fun row => row.countP P).sum

/-- Number of cells with `isRevealed = false`; the measure bounding the depth of
the reveal cascade. -/
def unrevealedCount (b : Board) : Nat :=
  countCells (fun c => !c.isRevealed) b

/-- The neighbor scan of `revealCell`: for each listed coordinate, recurse via
`reveal1` when the cell is not yet revealed on the current board (the source's
`!newBoard[ny][nx].isRevealed` check). -/
def revealNeighbors (reveal1 : Board → Nat → Nat → Board) :
    List (Nat × Nat) → Board → Board
  | [], b => b
  | p :: ps, b =>
    revealNeighbors reveal1 ps
      (if (cellAt b p.1 p.2).isRevealed = false then reveal1 b p.1 p.2 else b)

/-- `revealCell` of `gameUtils.ts`, with explicit fuel bounding the recursion
depth (the TypeScript recursion carries no fuel; `revealCellF_fuel_irrelevant`
shows any fuel above `unrevealedCount` gives the same answer). -/
def revealCellF : Nat → Board → Nat → Nat → Board
  | 0, b, _, _ => b
  | fuel + 1, b, x, y =>
    if (cellAt b x y).isRevealed = true ∨ (cellAt b x y).isFlagged = true then b
    else if (cellAt (updateCell b x y fun c => { c with isRevealed := true }) x y).adjacentMines
          = 0 ∧
        (cellAt (updateCell b x y fun c => { c with isRevealed := true }) x y).isMine
          = false then
      revealNeighbors (fun b' x' y' => revealCellF fuel b' x' y')
        (boxCoords b.length (b.getD 0 []).length x y)
        (updateCell b x y fun c => { c with isRevealed := true })
    else updateCell b x y fun c => { c with isRevealed := true }

/-- `revealCell` of `gameUtils.ts` (enough fuel for the whole cascade). -/
def revealCell (b : Board) (x y : Nat) : Board :=
  revealCellF (unrevealedCount b + 1) b x y

/-- `checkWinCondition` of `gameUtils.ts`: scans `y < board.length`,
`x < board[0].length` and fails on an unrevealed non-mine cell. -/
def checkWinCondition (b : Board) : Bool :=
  (List.range b.length).all fun y =>
    (List.range (b.getD 0 []).length).all fun x =>
      (cellAt b x y).isMine || (cellAt b x y).isRevealed

/-- Modelled from the spec: `revealMine` of `core/game.ts` is absent from the
sources; §4.2 defines it as unconditionally setting `isRevealed = true` on the
target cell, preserving every other field, with no cascade. -/
def revealMine (b : Board) (x y : Nat) : Board :=
  updateCell b x y fun c => { c with isRevealed := true }

/-- Modelled from the spec: `toggleFlag` of `core/game.ts` is absent from the
sources; §4.2 defines it as flipping `isFlagged` only if the cell is not
revealed, a no-op on revealed cells. -/
def toggleFlag (b : Board) (x y : Nat) : Board :=
  if (cellAt b x y).isRevealed = true then b
  else updateCell b x y fun c => { c with isFlagged := !c.isFlagged }

/-- `GameStatus` of `src/models/types`. -/
inductive GameStatus
  | idle
  | playing
  | won
  | lost
  deriving Repr, DecidableEq

/-- `Difficulty` of `src/models/types`. -/
inductive Difficulty
  | beginner
  | intermediate
  | expert
  | custom
  deriving Repr, DecidableEq

/-- Modelled from the spec: the `DifficultySettings` presets of `core/game.ts`
are absent from the sources; §6 fixes beginner 9×9/10, intermediate 16×16/40,
expert 30×16/99 (16 rows by 30 columns). The `custom` entry is `undefined` in
the TypeScript record and is never consulted on the inputs the claims range
over; it is mapped to a zero config here. -/
def DifficultySettings : Difficulty → BoardConfig
  | Difficulty.beginner => { rows := 9, columns := 9, mines := 10 }
  | Difficulty.intermediate => { rows := 16, columns := 16, mines := 40 }
  | Difficulty.expert => { rows := 16, columns := 30, mines := 99 }
  | Difficulty.custom => { rows := 0, columns := 0, mines := 0 }

/-- `GameEngine.getConfig`: the custom config when difficulty is `custom` and
one is present, the preset otherwise. -/
def getConfig (d : Difficulty) (cc : Option BoardConfig) : BoardConfig :=
  match d, cc with
  | Difficulty.custom, some c => c
  | d, _ => DifficultySettings d

/-- The private state of the `GameEngine` class. -/
structure GameEngine where
  board : Board
  gameStatus : GameStatus
  difficulty : Difficulty
  customConfig : Option BoardConfig
  minesRemaining : Int
  isFirstClick : Bool
  config : BoardConfig
  deriving Repr, DecidableEq

/-- The `GameEngine` constructor. -/
def GameEngine.init (d : Difficulty) (cc : Option BoardConfig) : GameEngine :=
  let cfg := getConfig d cc
  { board := initializeBoard cfg, gameStatus := GameStatus.idle, difficulty := d,
    customConfig := cc, minesRemaining := (cfg.mines : Int), isFirstClick := true,
    config := cfg }

/-- `GameEngine.resetGame`. -/
def resetGame (s : GameEngine) : GameEngine :=
  let cfg := getConfig s.difficulty s.customConfig
  { s with
    config := cfg, board := initializeBoard cfg, gameStatus := GameStatus.idle,
    minesRemaining := (cfg.mines : Int), isFirstClick := true }

/-- `GameEngine.setDifficulty`: stores the new difficulty and custom config and
eagerly recomputes the cached `config`. -/
def setDifficulty (s : GameEngine) (d : Difficulty) (cc : Option BoardConfig) : GameEngine :=
  { s with difficulty := d, customConfig := cc, config := getConfig d cc }

/-- Modelled from the spec: `handleFirstClick` of `core/game.ts` is absent from
the sources; §4.3 defines the first accepted reveal as `placeMines` with the
safe zone at the click followed by a reveal/cascade at the click. -/
def handleFirstClick (b : Board) (cfg : BoardConfig) (x y : Nat)
    (draws : List (Nat × Nat)) : Option Board :=
  (placeMines b cfg x y draws).map fun b1 => revealCell b1 x y

/-- Result record of `GameEngine.handleCellClick`. -/
structure ClickResult where
  boardChanged : Bool
  board : Board
  status : GameStatus
  deriving Repr, DecidableEq

/-- Result record of `GameEngine.handleCellFlag`. -/
structure FlagResult where
  boardChanged : Bool
  board : Board
  minesRemaining : Int
  deriving Repr, DecidableEq

/-- `GameEngine.handleCellClick`. `none` only on the first-click path when the
finite draw list runs out (see `placeMines`). -/
def handleCellClick (s : GameEngine) (x y : Nat) (draws : List (Nat × Nat)) :
    Option (ClickResult × GameEngine) :=
  if s.gameStatus = GameStatus.won ∨ s.gameStatus = GameStatus.lost ∨
      (cellAt s.board x y).isFlagged = true then
    some ({ boardChanged := false, board := s.board, status := s.gameStatus }, s)
  else if s.isFirstClick = true then
    (handleFirstClick s.board s.config x y draws).map fun b1 =>
      let st := if checkWinCondition b1 = true then GameStatus.won else GameStatus.playing
      ({ boardChanged := true, board := b1, status := st },
       { s with board := b1, isFirstClick := false, gameStatus := st })
  else if (cellAt s.board x y).isMine = true then
    let b1 := revealMine s.board x y
    some ({ boardChanged := true, board := b1, status := GameStatus.lost },
      { s with board := b1, gameStatus := GameStatus.lost })
  else
    let b1 := revealCell s.board x y
    let st := if checkWinCondition b1 = true then GameStatus.won else s.gameStatus
    some ({ boardChanged := true, board := b1, status := st },
      { s with board := b1, gameStatus := st })

/-- `GameEngine.handleCellFlag`. -/
def handleCellFlag (s : GameEngine) (x y : Nat) : FlagResult × GameEngine :=
  if s.gameStatus = GameStatus.won ∨ s.gameStatus = GameStatus.lost ∨
      (cellAt s.board x y).isRevealed = true then
    ({ boardChanged := false, board := s.board, minesRemaining := s.minesRemaining }, s)
  else
    let b1 := toggleFlag s.board x y
    let m1 := if (cellAt b1 x y).isFlagged = true then s.minesRemaining - 1
      else s.minesRemaining + 1
    ({ boardChanged := true, board := b1, minesRemaining := m1 },
     { s with board := b1, minesRemaining := m1 })

/-- The state touched by the flag handler of `src/hooks/useGameState.ts`. -/
structure HookState where
  board : Board
  gameStatus : GameStatus
  minesRemaining : Int
  deriving Repr, DecidableEq

/-- `handleCellFlag` of `src/hooks/useGameState.ts`: guard on terminal status or
a revealed cell, otherwise flip the flag in place and adjust the counter. -/
def hookHandleCellFlag (s : HookState) (x y : Nat) : HookState :=
  if s.gameStatus = GameStatus.won ∨ s.gameStatus = GameStatus.lost ∨
      (cellAt s.board x y).isRevealed = true then s
  else
    let b1 := updateCell s.board x y fun c => { c with isFlagged := !c.isFlagged }
    { s with
      board := b1,
      minesRemaining := if (cellAt b1 x y).isFlagged = true then s.minesRemaining - 1
        else s.minesRemaining + 1 }

/-- The cell `(x, y)` exists on the board (`board[y][x]` would not be
`undefined` in TypeScript). -/
abbrev inBoard (b : Board) (x y : Nat) : Prop :=
  y < b.length ∧ x < (b.getD y []).length

/-- In bounds for the `rows = board.length`, `cols = board[0].length` grid the
scanning loops of the source use. -/
abbrev inGrid (b : Board) (x y : Nat) : Prop :=
  y < b.length ∧ x < (b.getD 0 []).length

/-- Every row has the length of row 0 (the source's boards are rectangular). -/
abbrev Rect (b : Board) : Prop :=
  ∀ row ∈ b, row.length = (b.getD 0 []).length

/-- `board[y][x].isRevealed` on a coordinate pair. -/
def revAt (b : Board) (p : Nat × Nat) : Bool :=
  (cellAt b p.1 p.2).isRevealed

/-- `board[y][x].isFlagged` on a coordinate pair. -/
def flagAt (b : Board) (p : Nat × Nat) : Bool :=
  (cellAt b p.1 p.2).isFlagged

/-- `board[y][x].isMine` on a coordinate pair. -/
def mineAt (b : Board) (p : Nat × Nat) : Bool :=
  (cellAt b p.1 p.2).isMine

/-- `board[y][x].adjacentMines` on a coordinate pair. -/
def adjAt (b : Board) (p : Nat × Nat) : Nat :=
  (cellAt b p.1 p.2).adjacentMines

/-- Total number of mines on the board. -/
def mineCount (b : Board) : Nat :=
  countCells (fun c => c.isMine) b

/-- The board has exactly the `rows × columns` shape of the config. -/
abbrev DimsEq (b : Board) (cfg : BoardConfig) : Prop :=
  b.length = cfg.rows ∧ ∀ i, i < cfg.rows → (b.getD i []).length = cfg.columns

/-- The number of mines among the up-to-8 neighbors of `(x, y)` — the cell
itself excluded — in a `rows × cols` grid; the count the claims compare
`adjacentMines` against. -/
def neighborMineCount (b : Board) (rows cols x y : Nat) : Nat :=
  ((boxCoords rows cols x y).filter fun p => p ≠ (x, y)).countP fun p => mineAt b p

/-- Chebyshev distance at most 1 and distinct: 8-neighborhood adjacency on
coordinates. -/
abbrev adjCoord (p q : Nat × Nat) : Prop :=
  p ≠ q ∧ p.1 ≤ q.1 + 1 ∧ q.1 ≤ p.1 + 1 ∧ p.2 ≤ q.2 + 1 ∧ q.2 ≤ p.2 + 1

/-- An unrevealed, unflagged, in-grid, zero-adjacency, non-mine cell: the
vertices through which the reveal cascade propagates. -/
abbrev zeroVertex (b : Board) (p : Nat × Nat) : Prop :=
  inGrid b p.1 p.2 ∧ revAt b p = false ∧ flagAt b p = false ∧
    adjAt b p = 0 ∧ mineAt b p = false

/-- Connectivity from `c` inside the graph of `zeroVertex` cells under
8-adjacency: the zero region the cascade floods. -/
inductive ZeroReach (b : Board) (c : Nat × Nat) : Nat × Nat → Prop
  | refl : zeroVertex b c → ZeroReach b c c
  | tail {q r : Nat × Nat} : ZeroReach b c q → adjCoord q r → zeroVertex b r →
      ZeroReach b c r

/-- Connectivity from `c` through cells with `adjacentMines = 0` under
8-adjacency, with no condition on flags, reveal state or mines: the region as
worded by the claim under test. -/
inductive ZeroAdjReach (b : Board) (c : Nat × Nat) : Nat × Nat → Prop
  | refl : adjAt b c = 0 → ZeroAdjReach b c c
  | tail {q r : Nat × Nat} : ZeroAdjReach b c q → adjCoord q r → adjAt b r = 0 →
      ZeroAdjReach b c r

/-- Board evolution along the reveal cascade: same shape, every field except
`isRevealed` unchanged, and `isRevealed` only ever flips from false to true. -/
def Extends (b b' : Board) : Prop :=
  b'.length = b.length ∧ (∀ i, (b'.getD i []).length = (b.getD i []).length) ∧
    ∀ p : Nat × Nat, flagAt b' p = flagAt b p ∧ mineAt b' p = mineAt b p ∧
      adjAt b' p = adjAt b p ∧ (revAt b p = true → revAt b' p = true)

/-- `p` lies in the 3×3 box of some cell of the zero region reached from `c`:
the candidate set of cells the cascade reveals (region plus border). -/
def RegionBox (b : Board) (c p : Nat × Nat) : Prop :=
  ∃ q, ZeroReach b c q ∧ p ∈ boxCoords b.length (b.getD 0 []).length q.1 q.2

/-- No cell is simultaneously revealed and flagged. -/
def noRevFlag (b : Board) : Prop :=
  ∀ p : Nat × Nat, revAt b p = false ∨ flagAt b p = false

/-- The states a `GameEngine` can reach from a freshly constructed engine by
clicks (with any draw stream), flags, difficulty changes and resets, with
in-bounds coordinates. -/
inductive Reachable : GameEngine → Prop
  | init (d : Difficulty) (cc : Option BoardConfig) : Reachable (GameEngine.init d cc)
  | click {s : GameEngine} (x y : Nat) (draws : List (Nat × Nat))
      (r : ClickResult) (s' : GameEngine) : Reachable s → inGrid s.board x y →
      handleCellClick s x y draws = some (r, s') → Reachable s'
  | flag {s : GameEngine} (x y : Nat) : Reachable s → inGrid s.board x y →
      Reachable (handleCellFlag s x y).2
  | diff {s : GameEngine} (d : Difficulty) (cc : Option BoardConfig) :
      Reachable s → Reachable (setDifficulty s d cc)
  | reset {s : GameEngine} : Reachable s → Reachable (resetGame s)

/-- The mine-placement loop never returns on the given endlessly repeated
draw, whatever finite prefix of the random stream it is allowed to consume. -/
def placeMinesDiverges (b : Board) (cfg : BoardConfig) (fx fy : Nat)
    (d : Nat × Nat) : Prop :=
  ∀ n : Nat, placeMines b cfg fx fy (List.replicate n d) = none

/-- A 1×1 board whose only cell is a revealed mine. -/
def oneRevealedMine : Board :=
  [[{ x := 0, y := 0, isMine := true, isRevealed := true, isFlagged := false,
      adjacentMines := 0 }]]

/-- A 1×5 mine-free board with a flag on cell `(2, 0)`: every cell has
`adjacentMines = 0`, yet the flag blocks the cascade. -/
def flagBlockBoard : Board :=
  updateCell (initializeBoard { rows := 1, columns := 5, mines := 0 }) 2 0
    fun c => { c with isFlagged := true }

/-- The all-zero 3×3 board of the specification's cascade scenario. -/
def zero3Board : Board :=
  initializeBoard { rows := 3, columns := 3, mines := 0 }

/-- `zero3Board` with every cell revealed. -/
def zero3Revealed : Board :=
  (List.range 3).map fun y =>
    (List.range 3).map fun x =>
      { x := x, y := y, isMine := false, isRevealed := true, isFlagged := false,
        adjacentMines := 0 }

/-- A fresh engine on a custom 1×5 board with one mine. -/
def engine15 : GameEngine :=
  GameEngine.init Difficulty.custom (some { rows := 1, columns := 5, mines := 1 })

/-- Junk result pair used only to peel concrete `Option` values. -/
def junkPair : ClickResult × GameEngine :=
  ({ boardChanged := false, board := [], status := GameStatus.idle }, engine15)

/-- The engine after the first click of `engine15` at `(0, 0)` with the random
draw `(3, 0)`: cells `(0,0)`, `(1,0)`, `(2,0)` are revealed, the mine at
`(3, 0)` and the cell `(4, 0)` are not, and the status is `playing`. -/
def engine15clicked : GameEngine :=
  ((handleCellClick engine15 0 0 [(3, 0)]).getD junkPair).2

/-- `engine15` after `setDifficulty` to a custom 1×5 config with two mines
(no reset in between). -/
def engine15newDiff : GameEngine :=
  setDifficulty engine15 Difficulty.custom (some { rows := 1, columns := 5, mines := 2 })

/-- `engine15newDiff` after a first click at `(0, 0)` with draws `(3,0)`,
`(4,0)` — performed before any `resetGame`. -/
def engine15newDiffClicked : GameEngine :=
  ((handleCellClick engine15newDiff 0 0 [(3, 0), (4, 0)]).getD junkPair).2

/-- A fresh engine on a custom 2×2 board with one mine, used to instantiate
the flag round-trip. -/
def engine22 : GameEngine :=
  GameEngine.init Difficulty.custom (some { rows := 2, columns := 2, mines := 1 })

/-- The hook-level state corresponding to a fresh 2×2 game. -/
def hook22 : HookState :=
  { board := initializeBoard { rows := 2, columns := 2, mines := 1 },
    gameStatus := GameStatus.idle, minesRemaining := 1 }

/-- `engine15` with the status forced to `won`, a terminal state used to
instantiate the rejection guards. -/
def engine15won : GameEngine :=
  { engine15 with gameStatus := GameStatus.won }

/-- The board that `placeMines` produces from a fresh 3×3 board with one mine
drawn at `(2, 2)` and safe click `(0, 0)` (spelled out cell by cell). -/
def minedBoard3 : Board :=
  [[⟨0, 0, false, false, false, 0⟩, ⟨1, 0, false, false, false, 0⟩,
    ⟨2, 0, false, false, false, 0⟩],
   [⟨0, 1, false, false, false, 0⟩, ⟨1, 1, false, false, false, 1⟩,
    ⟨2, 1, false, false, false, 1⟩],
   [⟨0, 2, false, false, false, 0⟩, ⟨1, 2, false, false, false, 1⟩,
    ⟨2, 2, true, false, false, 1⟩]]

/-! ### List and single-cell update lemmas -/

theorem length_updateNth (f : α → α) : ∀ (n : Nat) (l : List α),
    (updateNth f n l).length = l.length := by
  intro n l
  induction l generalizing n with
  | nil => cases n <;> rfl
  | cons c cs ih => cases n with
    | zero => rfl
    | succ m => simpa [updateNth] using ih m

theorem getD_updateNth (f : α → α) (d : α) : ∀ (n m : Nat) (l : List α),
    (updateNth f n l).getD m d =
      if n = m ∧ m < l.length then f (l.getD m d) else l.getD m d := by
  intro n m l
  induction l generalizing n m with
  | nil => simp [updateNth]
  | cons c cs ih =>
    cases n with
    | zero =>
      cases m with
      | zero => simp [updateNth]
      | succ m' => simp [updateNth]
    | succ n' =>
      cases m with
      | zero => simp [updateNth]
      | succ m' =>
        have h := ih n' m'
        simp only [updateNth, List.getD_cons_succ, List.length_cons]
        rw [h]
        by_cases hc : n' = m' ∧ m' < cs.length
        · rw [if_pos hc, if_pos ⟨by omega, by omega⟩]
        · rw [if_neg hc, if_neg (by omega)]

theorem updateNth_of_ge (f : α → α) : ∀ (n : Nat) (l : List α),
    l.length ≤ n → updateNth f n l = l := by
  intro n l
  induction l generalizing n with
  | nil => cases n <;> intro _ <;> rfl
  | cons c cs ih =>
    cases n with
    | zero => intro h; simp at h
    | succ m => intro h; simpa [updateNth] using ih m (by simpa using h)

theorem updateNth_fix (f : α → α) (d : α) : ∀ (n : Nat) (l : List α),
    f (l.getD n d) = l.getD n d → updateNth f n l = l := by
  intro n l
  induction l generalizing n with
  | nil => cases n <;> intro _ <;> rfl
  | cons c cs ih =>
    cases n with
    | zero => intro h; simp_all [updateNth]
    | succ m => intro h; simpa [updateNth] using ih m (by simpa using h)

theorem countP_updateNth (P : α → Bool) (f : α → α) (d : α) : ∀ (n : Nat) (l : List α),
    n < l.length →
    (updateNth f n l).countP P + (if P (l.getD n d) = true then 1 else 0) =
      l.countP P + (if P (f (l.getD n d)) = true then 1 else 0) := by
  intro n l
  induction l generalizing n with
  | nil => intro h; simp at h
  | cons c cs ih =>
    cases n with
    | zero =>
      intro _
      simp only [updateNth, List.countP_cons, List.getD_cons_zero]
      omega
    | succ m =>
      intro h
      have := ih m (by simpa using h)
      simp only [updateNth, List.countP_cons, List.getD_cons_succ]
      omega

theorem length_updateCell (b : Board) (x y : Nat) (f : CellData → CellData) :
    (updateCell b x y f).length = b.length :=
  length_updateNth _ _ _

theorem rowLen_updateCell (b : Board) (x y : Nat) (f : CellData → CellData) (i : Nat) :
    ((updateCell b x y f).getD i []).length = (b.getD i []).length := by
  unfold updateCell
  rw [getD_updateNth]
  by_cases h : y = i ∧ i < b.length
  · rw [if_pos h, length_updateNth]
  · rw [if_neg h]

theorem cellAt_updateCell_self {b : Board} {x y : Nat} (f : CellData → CellData)
    (h : inBoard b x y) : cellAt (updateCell b x y f) x y = f (cellAt b x y) := by
  obtain ⟨hy, hx⟩ := h
  unfold cellAt updateCell
  rw [getD_updateNth, if_pos ⟨rfl, hy⟩, getD_updateNth, if_pos ⟨rfl, hx⟩]

theorem cellAt_updateCell_ne {b : Board} {x y x' y' : Nat} (f : CellData → CellData)
    (h : x' ≠ x ∨ y' ≠ y) : cellAt (updateCell b x y f) x' y' = cellAt b x' y' := by
  unfold cellAt updateCell
  rcases h with hx | hy
  · rw [getD_updateNth]
    by_cases hc : y = y' ∧ y' < b.length
    · rw [if_pos hc, getD_updateNth, if_neg (by omega)]
    · rw [if_neg hc]
  · rw [getD_updateNth, if_neg (by omega)]

theorem updateCell_oob {b : Board} {x y : Nat} (f : CellData → CellData)
    (h : ¬ inBoard b x y) : updateCell b x y f = b := by
  unfold inBoard at h
  push_neg at h
  by_cases hy : y < b.length
  · exact updateNth_fix _ [] _ _ (updateNth_of_ge f _ _ (h hy))
  · exact updateNth_of_ge _ _ _ (by omega)

theorem inBoard_updateCell {b : Board} {x y x' y' : Nat} (f : CellData → CellData) :
    inBoard (updateCell b x y f) x' y' ↔ inBoard b x' y' := by
  unfold inBoard
  rw [length_updateCell, rowLen_updateCell]

theorem cellAt_updateCell_field {β : Type} (F : CellData → β) (f : CellData → CellData)
    (hf : ∀ c, F (f c) = F c) (b : Board) (x y x' y' : Nat) :
    F (cellAt (updateCell b x y f) x' y') = F (cellAt b x' y') := by
  by_cases hb : inBoard b x y
  · by_cases hxy : x' = x ∧ y' = y
    · obtain ⟨rfl, rfl⟩ := hxy
      rw [cellAt_updateCell_self f hb, hf]
    · rw [cellAt_updateCell_ne f (by omega)]

  · rw [updateCell_oob f hb]

theorem countCells_updateCell (P : CellData → Bool) {b : Board} {x y : Nat}
    (f : CellData → CellData) (h : inBoard b x y) :
    countCells P (updateCell b x y f) + (if P (cellAt b x y) = true then 1 else 0) =
      countCells P b + (if P (f (cellAt b x y)) = true then 1 else 0) := by
  obtain ⟨hy, hx⟩ := h
  unfold countCells updateCell cellAt
  induction b generalizing y with
  | nil => simp at hy
  | cons row rows ih =>
    cases y with
    | zero =>
      simp only [List.getD_cons_zero] at hx ⊢
      simp only [updateNth, List.map_cons, List.sum_cons]
      have := countP_updateNth P f defaultCell x row hx
      omega
    | succ y' =>
      simp only [List.getD_cons_succ] at hx ⊢
      have := ih (by simpa using hy) hx
      simp only [updateNth, List.map_cons, List.sum_cons]
      omega

/-! ### Range and box lemmas -/

theorem mem_rangeIncl {m a b : Nat} : m ∈ rangeIncl a b ↔ a ≤ m ∧ m ≤ b := by
  unfold rangeIncl
  simp only [List.mem_map, List.mem_range]
  constructor
  · rintro ⟨k, hk, rfl⟩; omega
  · intro ⟨h1, h2⟩; exact ⟨m - a, by omega, by omega⟩

theorem nodup_rangeIncl (a b : Nat) : (rangeIncl a b).Nodup :=
  (List.nodup_range _).map fun _ _ h => by omega

theorem mem_boxCoords {p : Nat × Nat} {R C x y : Nat} :
    p ∈ boxCoords R C x y ↔
      (x - 1 ≤ p.1 ∧ p.1 ≤ min (C - 1) (x + 1)) ∧
        (y - 1 ≤ p.2 ∧ p.2 ≤ min (R - 1) (y + 1)) := by
  unfold boxCoords
  simp only [List.mem_flatMap, List.mem_map, mem_rangeIncl]
  constructor
  · rintro ⟨ny, hny, nx, hnx, rfl⟩
    exact ⟨hnx, hny⟩
  · rintro ⟨hx, hy⟩
    exact ⟨p.2, hy, p.1, hx, rfl⟩

theorem nodup_boxCoords (R C x y : Nat) : (boxCoords R C x y).Nodup := by
  unfold boxCoords
  rw [List.nodup_flatMap]
  refine ⟨fun ny _ => (nodup_rangeIncl _ _).map fun a b h => by
    simpa using congrArg Prod.fst h, ?_⟩
  refine (nodup_rangeIncl _ _).imp ?_
  intro a b hab q hqa hqb
  simp only [List.mem_map] at hqa hqb
  obtain ⟨_, _, rfl⟩ := hqa
  obtain ⟨_, _, h⟩ := hqb
  exact hab (by simpa using (congrArg Prod.snd h).symm)

theorem count_eq_one_of_nodup_mem {α : Type} [BEq α] [LawfulBEq α] {l : List α} {a : α}
    (h : l.Nodup) (ha : a ∈ l) : List.count a l = 1 := by
  induction l with
  | nil => simp at ha
  | cons b bs ih =>
    rw [List.nodup_cons] at h
    rw [List.count_cons]
    rcases List.mem_cons.mp ha with rfl | hmem
    · rw [List.count_eq_zero_of_not_mem h.1]
      simp
    · rw [ih h.2 hmem, if_neg (by simp; rintro rfl; exact h.1 hmem)]

theorem count_boxCoords (R C x y : Nat) (p : Nat × Nat) :
    (boxCoords R C x y).count p = if p ∈ boxCoords R C x y then 1 else 0 := by
  by_cases h : p ∈ boxCoords R C x y
  · rw [if_pos h]; exact count_eq_one_of_nodup_mem (nodup_boxCoords R C x y) h
  · rw [if_neg h]; exact List.count_eq_zero_of_not_mem h

theorem countP_flip_at {l : List (Nat × Nat)} (hnd : l.Nodup) (P Q : Nat × Nat → Bool)
    (d : Nat × Nat) (hne : ∀ a ∈ l, a ≠ d → Q a = P a) (hQ : Q d = true)
    (hP : P d = false) :
    l.countP Q = l.countP P + (if d ∈ l then 1 else 0) := by
  induction l with
  | nil => simp
  | cons a as ih =>
    rw [List.nodup_cons] at hnd
    by_cases ha : a = d
    · subst ha
      have hrest : as.countP Q = as.countP P :=
        List.countP_congr fun q hq => by
          rw [hne q (List.mem_cons_of_mem _ hq) (by rintro rfl; exact hnd.1 hq)]

      simp [List.countP_cons, hrest, hQ, hP]
    · have := ih hnd.2 fun q hq => hne q (List.mem_cons_of_mem _ hq)
      have hQa : Q a = P a := hne a (List.mem_cons_self a as) (by exact ha)
      simp only [List.countP_cons, this, hQa, List.mem_cons]
      have : (d ∈ as ∨ d = a) ↔ d ∈ as := by
        constructor
        · rintro (h | rfl)
          · exact h
          · exact absurd rfl (by exact fun h => ha h.symm)
        · exact Or.inl
      by_cases hd : d ∈ as
      · simp [hd, Ne.symm ha]; omega
      · simp [hd, Ne.symm ha]

/-! ### Mine placement lemmas -/

theorem length_foldUpdate (g : CellData → CellData) :
    ∀ (ps : List (Nat × Nat)) (b : Board),
    (ps.foldl (fun acc p => updateCell acc p.1 p.2 g) b).length = b.length := by
  intro ps
  induction ps with
  | nil => intro b; rfl
  | cons q qs ih => intro b; rw [List.foldl_cons, ih, length_updateCell]

theorem rowLen_foldUpdate (g : CellData → CellData) :
    ∀ (ps : List (Nat × Nat)) (b : Board) (i : Nat),
    ((ps.foldl (fun acc p => updateCell acc p.1 p.2 g) b).getD i []).length =
      (b.getD i []).length := by
  intro ps
  induction ps with
  | nil => intro b i; rfl
  | cons q qs ih => intro b i; rw [List.foldl_cons, ih, rowLen_updateCell]

theorem cellAt_foldUpdate_field {β : Type} (F : CellData → β) (g : CellData → CellData)
    (hg : ∀ c, F (g c) = F c) :
    ∀ (ps : List (Nat × Nat)) (b : Board) (x' y' : Nat),
    F (cellAt (ps.foldl (fun acc p => updateCell acc p.1 p.2 g) b) x' y') =
      F (cellAt b x' y') := by
  intro ps
  induction ps with
  | nil => intro b x' y'; rfl
  | cons q qs ih =>
    intro b x' y'
    rw [List.foldl_cons, ih, cellAt_updateCell_field F g hg]

theorem adjAt_foldIncr :
    ∀ (ps : List (Nat × Nat)) (b : Board) (p : Nat × Nat),
    (∀ q ∈ ps, inBoard b q.1 q.2) →
    adjAt (ps.foldl (fun acc q => updateCell acc q.1 q.2
        fun c => { c with adjacentMines := c.adjacentMines + 1 }) b) p =
      adjAt b p + ps.count p := by
  intro ps
  induction ps with
  | nil => intro b p _; simp
  | cons q qs ih =>
    intro b p hin
    have hq : inBoard b q.1 q.2 := hin q (List.mem_cons_self q qs)
    have hqs : ∀ q' ∈ qs, inBoard (updateCell b q.1 q.2
        fun c => { c with adjacentMines := c.adjacentMines + 1 }) q'.1 q'.2 :=
      fun q' hq' => (inBoard_updateCell _).mpr (hin q' (List.mem_cons_of_mem _ hq'))
    rw [List.foldl_cons, ih _ p hqs]
    by_cases hpq : p = q
    · subst hpq
      unfold adjAt
      rw [cellAt_updateCell_self _ hq, List.count_cons_self]
      simp only []
      omega
    · unfold adjAt
      rw [cellAt_updateCell_ne _ (by rw [Prod.ext_iff] at hpq; omega),
        List.count_cons_of_ne hpq]

theorem length_placeMineAt (b : Board) (cfg : BoardConfig) (x y : Nat) :
    (placeMineAt b cfg x y).length = b.length := by
  unfold placeMineAt
  rw [length_foldUpdate, length_updateCell]

theorem rowLen_placeMineAt (b : Board) (cfg : BoardConfig) (x y : Nat) (i : Nat) :
    ((placeMineAt b cfg x y).getD i []).length = (b.getD i []).length := by
  unfold placeMineAt
  rw [rowLen_foldUpdate, rowLen_updateCell]

theorem dimsEq_placeMineAt {b : Board} {cfg : BoardConfig} (x y : Nat)
    (h : DimsEq b cfg) : DimsEq (placeMineAt b cfg x y) cfg := by
  obtain ⟨h1, h2⟩ := h
  exact ⟨by rw [length_placeMineAt, h1],
    fun i hi => by rw [rowLen_placeMineAt]; exact h2 i hi⟩

theorem cellAt_placeMineAt_mine (b : Board) (cfg : BoardConfig) (x y x' y' : Nat) :
    (cellAt (placeMineAt b cfg x y) x' y').isMine =
      (cellAt (updateCell b x y fun c => { c with isMine := true }) x' y').isMine := by
  unfold placeMineAt
  have h := cellAt_foldUpdate_field (fun c => c.isMine)
    (fun c => { c with adjacentMines := c.adjacentMines + 1 }) (fun c => rfl)
    (boxCoords cfg.rows cfg.columns x y)
    (updateCell b x y fun c => { c with isMine := true }) x' y'
  exact h

theorem mineAt_placeMineAt_self {b : Board} (cfg : BoardConfig) {x y : Nat}
    (h : inBoard b x y) : mineAt (placeMineAt b cfg x y) (x, y) = true := by
  unfold mineAt
  rw [cellAt_placeMineAt_mine, cellAt_updateCell_self _ h]

theorem mineAt_placeMineAt_ne {b : Board} {cfg : BoardConfig} {x y : Nat}
    {p : Nat × Nat} (h : p ≠ (x, y)) :
    mineAt (placeMineAt b cfg x y) p = mineAt b p := by
  unfold mineAt
  rw [cellAt_placeMineAt_mine,
    cellAt_updateCell_ne _ (by
      by_contra hc
      push_neg at hc
      exact h (Prod.ext hc.1 hc.2))]

theorem revAt_placeMineAt (b : Board) (cfg : BoardConfig) (x y : Nat) (p : Nat × Nat) :
    revAt (placeMineAt b cfg x y) p = revAt b p := by
  unfold revAt placeMineAt
  have h1 := cellAt_foldUpdate_field (fun c => c.isRevealed)
    (fun c => { c with adjacentMines := c.adjacentMines + 1 }) (fun c => rfl)
    (boxCoords cfg.rows cfg.columns x y)
    (updateCell b x y fun c => { c with isMine := true }) p.1 p.2
  have h2 := cellAt_updateCell_field (fun c => c.isRevealed)
    (fun c => { c with isMine := true }) (fun _ => rfl) b x y p.1 p.2
  exact h1.trans h2

theorem flagAt_placeMineAt (b : Board) (cfg : BoardConfig) (x y : Nat) (p : Nat × Nat) :
    flagAt (placeMineAt b cfg x y) p = flagAt b p := by
  unfold flagAt placeMineAt
  have h1 := cellAt_foldUpdate_field (fun c => c.isFlagged)
    (fun c => { c with adjacentMines := c.adjacentMines + 1 }) (fun c => rfl)
    (boxCoords cfg.rows cfg.columns x y)
    (updateCell b x y fun c => { c with isMine := true }) p.1 p.2
  have h2 := cellAt_updateCell_field (fun c => c.isFlagged)
    (fun c => { c with isMine := true }) (fun _ => rfl) b x y p.1 p.2
  exact h1.trans h2

theorem boxCoords_inBoard {b : Board} {cfg : BoardConfig} (hdims : DimsEq b cfg)
    {x y : Nat} (hx : x < cfg.columns) (hy : y < cfg.rows) :
    ∀ q ∈ boxCoords cfg.rows cfg.columns x y, inBoard b q.1 q.2 := by
  intro q hq
  rw [mem_boxCoords] at hq
  have hq2 : q.2 < cfg.rows := by omega
  exact ⟨by rw [hdims.1]; exact hq2, by rw [hdims.2 q.2 hq2]; omega⟩

theorem adjAt_placeMineAt {b : Board} {cfg : BoardConfig} {x y : Nat}
    (hdims : DimsEq b cfg) (hx : x < cfg.columns) (hy : y < cfg.rows) (p : Nat × Nat) :
    adjAt (placeMineAt b cfg x y) p =
      adjAt b p + (if p ∈ boxCoords cfg.rows cfg.columns x y then 1 else 0) := by
  unfold placeMineAt
  rw [adjAt_foldIncr _ _ _ (fun q hq => (inBoard_updateCell _).mpr
    (boxCoords_inBoard hdims hx hy q hq))]
  rw [count_boxCoords]
  have h2 := cellAt_updateCell_field (fun c => c.adjacentMines)
    (fun c => { c with isMine := true }) (fun _ => rfl) b x y p.1 p.2
  unfold adjAt
  rw [h2]

theorem mineCount_foldIncr :
    ∀ (ps : List (Nat × Nat)) (b : Board),
    mineCount (ps.foldl (fun acc p => updateCell acc p.1 p.2
      fun c => { c with adjacentMines := c.adjacentMines + 1 }) b) = mineCount b := by
  intro ps
  induction ps with
  | nil => intro b; rfl
  | cons q qs ih =>
    intro b
    rw [List.foldl_cons, ih]
    unfold mineCount
    by_cases hq : inBoard b q.1 q.2
    · have h2 := countCells_updateCell (fun c => c.isMine)
        (fun c => { c with adjacentMines := c.adjacentMines + 1 }) hq
      simp only [] at h2
      omega
    · rw [updateCell_oob _ hq]

theorem mineCount_placeMineAt {b : Board} (cfg : BoardConfig) {x y : Nat}
    (h : inBoard b x y) (hnm : (cellAt b x y).isMine = false) :
    mineCount (placeMineAt b cfg x y) = mineCount b + 1 := by
  unfold placeMineAt
  rw [mineCount_foldIncr]
  unfold mineCount
  have h2 := countCells_updateCell (fun c => c.isMine)
    (fun c => { c with isMine := true }) h
  simp only [hnm] at h2
  simp at h2
  omega

/-! ### Safe zone, mine count and adjacency through the placement loop -/

theorem self_mem_boxCoords {R C x y : Nat} (hx : x < C) (hy : y < R) :
    (x, y) ∈ boxCoords R C x y := by
  rw [mem_boxCoords]
  constructor <;> constructor <;> omega

theorem mem_boxCoords_symm (R C : Nat) (p d : Nat × Nat) (hp1 : p.1 < C) (hp2 : p.2 < R)
    (hd1 : d.1 < C) (hd2 : d.2 < R) :
    (p ∈ boxCoords R C d.1 d.2 ↔ d ∈ boxCoords R C p.1 p.2) := by
  rw [mem_boxCoords, mem_boxCoords]
  omega

theorem mineCount_eq_zero {b : Board} {cfg : BoardConfig} (hdims : DimsEq b cfg)
    (hfree : ∀ x : Nat, x < cfg.columns → ∀ y : Nat, y < cfg.rows → mineAt b (x, y) = false) :
    mineCount b = 0 := by
  unfold mineCount countCells
  apply List.sum_eq_zero
  intro n hn
  rw [List.mem_map] at hn
  obtain ⟨row, hrow, rfl⟩ := hn
  rw [List.countP_eq_zero]
  intro c hc
  rw [List.mem_iff_getElem] at hrow
  obtain ⟨i, hi, rfl⟩ := hrow
  rw [List.mem_iff_getElem] at hc
  obtain ⟨j, hj, rfl⟩ := hc
  have hrows : i < cfg.rows := by rw [← hdims.1]; exact hi
  have hgd : b.getD i [] = b[i] := List.getD_eq_getElem b [] hi
  have hcols : j < cfg.columns := by
    have hl := hdims.2 i hrows
    rw [hgd] at hl
    omega
  have hfj := hfree j hcols i hrows
  unfold mineAt cellAt at hfj
  dsimp only at hfj
  rw [hgd, List.getD_eq_getElem _ defaultCell hj] at hfj
  simp [hfj]

theorem placeMinesLoop_mineCount {cfg : BoardConfig} {sz : List (Nat × Nat)} :
    ∀ (draws : List (Nat × Nat)) (b : Board) (placed : Nat) (b' : Board),
    DimsEq b cfg → (∀ d ∈ draws, d.1 < cfg.columns ∧ d.2 < cfg.rows) →
    placed ≤ cfg.mines → placeMinesLoop cfg sz draws b placed = some b' →
    mineCount b' + placed = mineCount b + cfg.mines := by
  intro draws
  induction draws with
  | nil =>
    intro b placed b' _ _ hle heq
    unfold placeMinesLoop at heq
    by_cases hm : cfg.mines ≤ placed
    · rw [if_pos hm] at heq
      have : b = b' := by simpa using heq
      subst this
      omega
    · rw [if_neg hm] at heq
      simp at heq
  | cons d rest ih =>
    intro b placed b' hdims hdraws hle heq
    unfold placeMinesLoop at heq
    by_cases hm : cfg.mines ≤ placed
    · rw [if_pos hm] at heq
      have : b = b' := by simpa using heq
      subst this
      omega
    · rw [if_neg hm] at heq
      have hd := hdraws d (List.mem_cons_self d rest)
      by_cases hc : (cellAt b d.1 d.2).isMine = false ∧ d ∉ sz
      · rw [if_pos hc] at heq
        have hin : inBoard b d.1 d.2 :=
          ⟨by rw [hdims.1]; exact hd.2, by rw [hdims.2 d.2 hd.2]; exact hd.1⟩
        have hstep := mineCount_placeMineAt cfg hin hc.1
        have := ih (placeMineAt b cfg d.1 d.2) (placed + 1) b'
          (dimsEq_placeMineAt d.1 d.2 hdims)
          (fun q hq => hdraws q (List.mem_cons_of_mem _ hq)) (by omega) heq
        omega
      · rw [if_neg hc] at heq
        exact ih b placed b' hdims (fun q hq => hdraws q (List.mem_cons_of_mem _ hq))
          (by omega) heq

theorem placeMinesLoop_safeZone {cfg : BoardConfig} {sz : List (Nat × Nat)} :
    ∀ (draws : List (Nat × Nat)) (b : Board) (placed : Nat) (b' : Board),
    (∀ p ∈ sz, mineAt b p = false) →
    placeMinesLoop cfg sz draws b placed = some b' →
    ∀ p ∈ sz, mineAt b' p = false := by
  intro draws
  induction draws with
  | nil =>
    intro b placed b' hsz heq
    unfold placeMinesLoop at heq
    by_cases hm : cfg.mines ≤ placed
    · rw [if_pos hm] at heq
      have : b = b' := by simpa using heq
      subst this
      exact hsz
    · rw [if_neg hm] at heq
      simp at heq
  | cons d rest ih =>
    intro b placed b' hsz heq
    unfold placeMinesLoop at heq
    by_cases hm : cfg.mines ≤ placed
    · rw [if_pos hm] at heq
      have : b = b' := by simpa using heq
      subst this
      exact hsz
    · rw [if_neg hm] at heq
      by_cases hc : (cellAt b d.1 d.2).isMine = false ∧ d ∉ sz
      · rw [if_pos hc] at heq
        refine ih _ _ _ ?_ heq
        intro p hp
        rw [mineAt_placeMineAt_ne (by rintro rfl; exact hc.2 hp)]
        exact hsz p hp
      · rw [if_neg hc] at heq
        exact ih _ _ _ hsz heq

theorem adjInv_placeMineAt {b : Board} {cfg : BoardConfig} {d : Nat × Nat}
    (hdims : DimsEq b cfg) (hd1 : d.1 < cfg.columns) (hd2 : d.2 < cfg.rows)
    (hnm : mineAt b d = false)
    (hinv : ∀ p : Nat × Nat, p.1 < cfg.columns → p.2 < cfg.rows →
      adjAt b p = neighborMineCount b cfg.rows cfg.columns p.1 p.2 +
        (if mineAt b p = true then 1 else 0)) :
    ∀ p : Nat × Nat, p.1 < cfg.columns → p.2 < cfg.rows →
      adjAt (placeMineAt b cfg d.1 d.2) p =
        neighborMineCount (placeMineAt b cfg d.1 d.2) cfg.rows cfg.columns p.1 p.2 +
          (if mineAt (placeMineAt b cfg d.1 d.2) p = true then 1 else 0) := by
  intro p hp1 hp2
  have hdin : inBoard b d.1 d.2 :=
    ⟨by rw [hdims.1]; exact hd2, by rw [hdims.2 d.2 hd2]; exact hd1⟩
  have hadj := adjAt_placeMineAt hdims hd1 hd2 p
  have hselfmine : mineAt (placeMineAt b cfg d.1 d.2) d = true := by
    have h := mineAt_placeMineAt_self cfg hdin
    simpa using h
  by_cases hpd : p = d
  · subst hpd
    have hmem : p ∈ boxCoords cfg.rows cfg.columns p.1 p.2 := by
      have h := self_mem_boxCoords hp1 hp2
      simpa using h
    have hnbr : neighborMineCount (placeMineAt b cfg p.1 p.2) cfg.rows cfg.columns p.1 p.2 =
        neighborMineCount b cfg.rows cfg.columns p.1 p.2 := by
      unfold neighborMineCount
      apply List.countP_congr
      intro q hq
      rw [List.mem_filter] at hq
      have hqd : q ≠ p := by
        have h2 := hq.2
        simp only [decide_eq_true_eq] at h2
        intro he
        exact h2 (by rw [he])
      rw [mineAt_placeMineAt_ne hqd]
    have hbase := hinv p hp1 hp2
    rw [hnm, if_neg Bool.false_ne_true] at hbase
    rw [hadj, if_pos hmem, hnbr, hselfmine, if_pos rfl]
    omega
  · have hmines : mineAt (placeMineAt b cfg d.1 d.2) p = mineAt b p :=
      mineAt_placeMineAt_ne hpd
    have hnbr : neighborMineCount (placeMineAt b cfg d.1 d.2) cfg.rows cfg.columns p.1 p.2 =
        neighborMineCount b cfg.rows cfg.columns p.1 p.2 +
          (if d ∈ boxCoords cfg.rows cfg.columns p.1 p.2 then 1 else 0) := by
      unfold neighborMineCount
      have hflip := countP_flip_at
        (List.Nodup.filter (fun q => decide (q ≠ (p.1, p.2)))
          (nodup_boxCoords cfg.rows cfg.columns p.1 p.2))
        (fun q => mineAt b q) (fun q => mineAt (placeMineAt b cfg d.1 d.2) q) d
        (fun a _ ha => mineAt_placeMineAt_ne ha) hselfmine hnm
      rw [hflip]
      have hmemiff : (d ∈ (boxCoords cfg.rows cfg.columns p.1 p.2).filter
          fun q => decide (q ≠ (p.1, p.2))) ↔
          d ∈ boxCoords cfg.rows cfg.columns p.1 p.2 := by
        rw [List.mem_filter]
        have : (decide (d ≠ (p.1, p.2))) = true := by
          simp only [decide_eq_true_eq]
          intro he
          exact hpd (by rw [he])
        simp [this]
      by_cases hdm : d ∈ boxCoords cfg.rows cfg.columns p.1 p.2
      · rw [if_pos hdm, if_pos (hmemiff.mpr hdm)]
      · rw [if_neg hdm, if_neg (fun h => hdm (hmemiff.mp h))]
    have hsym := mem_boxCoords_symm cfg.rows cfg.columns p d hp1 hp2 hd1 hd2
    have hbase := hinv p hp1 hp2
    rw [hadj, hnbr, hmines]
    by_cases hmem : p ∈ boxCoords cfg.rows cfg.columns d.1 d.2
    · rw [if_pos hmem, if_pos (hsym.mp hmem)]
      omega
    · rw [if_neg hmem, if_neg (fun h => hmem (hsym.mpr h))]
      omega

theorem placeMinesLoop_adjInv {cfg : BoardConfig} {sz : List (Nat × Nat)} :
    ∀ (draws : List (Nat × Nat)) (b : Board) (placed : Nat) (b' : Board),
    DimsEq b cfg → (∀ d ∈ draws, d.1 < cfg.columns ∧ d.2 < cfg.rows) →
    (∀ p : Nat × Nat, p.1 < cfg.columns → p.2 < cfg.rows →
      adjAt b p = neighborMineCount b cfg.rows cfg.columns p.1 p.2 +
        (if mineAt b p = true then 1 else 0)) →
    placeMinesLoop cfg sz draws b placed = some b' →
    ∀ p : Nat × Nat, p.1 < cfg.columns → p.2 < cfg.rows →
      adjAt b' p = neighborMineCount b' cfg.rows cfg.columns p.1 p.2 +
        (if mineAt b' p = true then 1 else 0) := by
  intro draws
  induction draws with
  | nil =>
    intro b placed b' _ _ hinv heq
    unfold placeMinesLoop at heq
    by_cases hm : cfg.mines ≤ placed
    · rw [if_pos hm] at heq
      have : b = b' := by simpa using heq
      subst this
      exact hinv
    · rw [if_neg hm] at heq
      simp at heq
  | cons d rest ih =>
    intro b placed b' hdims hdraws hinv heq
    unfold placeMinesLoop at heq
    by_cases hm : cfg.mines ≤ placed
    · rw [if_pos hm] at heq
      have : b = b' := by simpa using heq
      subst this
      exact hinv
    · rw [if_neg hm] at heq
      have hd := hdraws d (List.mem_cons_self d rest)
      by_cases hc : (cellAt b d.1 d.2).isMine = false ∧ d ∉ sz
      · rw [if_pos hc] at heq
        exact ih _ _ _ (dimsEq_placeMineAt d.1 d.2 hdims)
          (fun q hq => hdraws q (List.mem_cons_of_mem _ hq))
          (adjInv_placeMineAt hdims hd.1 hd.2 hc.1 hinv) heq
      · rw [if_neg hc] at heq
        exact ih _ _ _ hdims (fun q hq => hdraws q (List.mem_cons_of_mem _ hq)) hinv heq

theorem placeMinesLoop_total {cfg : BoardConfig} {sz : List (Nat × Nat)} :
    ∀ (draws : List (Nat × Nat)) (b : Board) (placed : Nat),
    draws.Nodup →
    (∀ d ∈ draws, d ∉ sz ∧ mineAt b d = false ∧ d.1 < cfg.columns ∧ d.2 < cfg.rows) →
    DimsEq b cfg → cfg.mines ≤ placed + draws.length →
    ∃ b', placeMinesLoop cfg sz draws b placed = some b' := by
  intro draws
  induction draws with
  | nil =>
    intro b placed _ _ _ hlen
    exact ⟨b, by unfold placeMinesLoop; rw [if_pos (by simpa using hlen)]⟩
  | cons d rest ih =>
    intro b placed hnd helig hdims hlen
    by_cases hm : cfg.mines ≤ placed
    · exact ⟨b, by unfold placeMinesLoop; rw [if_pos hm]⟩
    · have hd := helig d (List.mem_cons_self d rest)
      rw [List.nodup_cons] at hnd
      have hcond : (cellAt b d.1 d.2).isMine = false ∧ d ∉ sz := by
        refine ⟨?_, hd.1⟩
        have h2 := hd.2.1
        unfold mineAt at h2
        exact h2
      have hrest : ∀ q ∈ rest, q ∉ sz ∧ mineAt (placeMineAt b cfg d.1 d.2) q = false ∧
          q.1 < cfg.columns ∧ q.2 < cfg.rows := by
        intro q hq
        have hqe := helig q (List.mem_cons_of_mem _ hq)
        refine ⟨hqe.1, ?_, hqe.2.2⟩
        rw [mineAt_placeMineAt_ne (by rintro rfl; exact hnd.1 hq)]
        exact hqe.2.1
      obtain ⟨b', hb'⟩ := ih (placeMineAt b cfg d.1 d.2) (placed + 1) hnd.2 hrest
        (dimsEq_placeMineAt d.1 d.2 hdims) (by simp at hlen ⊢; omega)
      exact ⟨b', by
        unfold placeMinesLoop
        rw [if_neg hm, if_pos hcond]
        exact hb'⟩

/-! ### Claims C1, C2, C9: mine placement -/

/-- C1: for a valid config, a mine-free board of matching dimensions and an
in-bounds safe-click coordinate, a run of `placeMines` that finishes (returns
`some`) yields a board with exactly `config.mines` mine cells, and no cell of
the 3×3 neighborhood centered on the safe click, clipped to the grid, is a
mine. -/
theorem C1_placeMines_mineCount_safeZone {cfg : BoardConfig} {b b' : Board}
    {fx fy : Nat} {draws : List (Nat × Nat)}
    (hdims : DimsEq b cfg)
    (hfree : ∀ x : Nat, x < cfg.columns → ∀ y : Nat, y < cfg.rows → mineAt b (x, y) = false)
    (hfx : fx < cfg.columns) (hfy : fy < cfg.rows)
    (hdraws : ∀ d ∈ draws, d.1 < cfg.columns ∧ d.2 < cfg.rows)
    (hsucc : placeMines b cfg fx fy draws = some b') :
    mineCount b' = cfg.mines ∧
      ∀ p ∈ boxCoords cfg.rows cfg.columns fx fy, mineAt b' p = false := by
  constructor
  · have h := placeMinesLoop_mineCount draws b 0 b' hdims hdraws (Nat.zero_le _) hsucc
    have hz := mineCount_eq_zero hdims hfree
    omega
  · refine placeMinesLoop_safeZone draws b 0 b' ?_ hsucc
    intro q hq
    rw [mem_boxCoords] at hq
    exact hfree q.1 (by omega) q.2 (by omega)

/-- Witness for C1 on a concrete 3×3 one-mine run. -/
theorem C1_witness :
    mineCount minedBoard3 = 1 ∧
      ∀ p ∈ boxCoords 3 3 0 0, mineAt minedBoard3 p = false :=
  @C1_placeMines_mineCount_safeZone { rows := 3, columns := 3, mines := 1 }
    (initializeBoard { rows := 3, columns := 3, mines := 1 }) minedBoard3 0 0 [(2, 2)]
    (by decide) (by decide) (by decide) (by decide) (by decide) (by decide)

/-- C2 counterexample: one mine at `(2, 2)` on a 3×3 board; the mine has no
mine among its 8 neighbors, yet its own `adjacentMines` is 1 — the placement
loop also increments the mine cell itself (`dx = dy = 0` is not skipped). -/
theorem C2_counterexample :
    placeMines (initializeBoard { rows := 3, columns := 3, mines := 1 })
        { rows := 3, columns := 3, mines := 1 } 0 0 [(2, 2)] = some minedBoard3 ∧
      mineAt minedBoard3 (2, 2) = true ∧
      neighborMineCount minedBoard3 3 3 2 2 = 0 ∧
      adjAt minedBoard3 (2, 2) = 1 := by
  decide

/-- C2 (amended): on a successful `placeMines` run from a fresh (mine-free,
zero-adjacency) board, every in-bounds cell's `adjacentMines` equals the exact
number of mines among its up-to-8 neighbors *plus one if the cell is itself a
mine* (non-mine cells therefore carry the exact neighbor count, mine cells the
neighbor count + 1). -/
theorem C2_placeMines_adjacentMines {cfg : BoardConfig} {b b' : Board}
    {fx fy : Nat} {draws : List (Nat × Nat)}
    (hdims : DimsEq b cfg)
    (hfree : ∀ x : Nat, x < cfg.columns → ∀ y : Nat, y < cfg.rows → mineAt b (x, y) = false)
    (hadj : ∀ x : Nat, x < cfg.columns → ∀ y : Nat, y < cfg.rows → adjAt b (x, y) = 0)
    (hdraws : ∀ d ∈ draws, d.1 < cfg.columns ∧ d.2 < cfg.rows)
    (hsucc : placeMines b cfg fx fy draws = some b') :
    ∀ x y : Nat, x < cfg.columns → y < cfg.rows →
      adjAt b' (x, y) = neighborMineCount b' cfg.rows cfg.columns x y +
        (if mineAt b' (x, y) = true then 1 else 0) := by
  intro x y hx hy
  have base : ∀ p : Nat × Nat, p.1 < cfg.columns → p.2 < cfg.rows →
      adjAt b p = neighborMineCount b cfg.rows cfg.columns p.1 p.2 +
        (if mineAt b p = true then 1 else 0) := by
    intro p hp1 hp2
    have h0 : adjAt b p = 0 := hadj p.1 hp1 p.2 hp2
    have hm0 : mineAt b p = false := hfree p.1 hp1 p.2 hp2
    have hnz : neighborMineCount b cfg.rows cfg.columns p.1 p.2 = 0 := by
      unfold neighborMineCount
      rw [List.countP_eq_zero]
      intro q hq
      rw [List.mem_filter, mem_boxCoords] at hq
      have h1 : q.1 < cfg.columns := by omega
      have h2 : q.2 < cfg.rows := by omega
      have hqf : mineAt b q = false := hfree q.1 h1 q.2 h2
      simp [hqf]
    rw [h0, hnz, hm0]
    simp
  exact placeMinesLoop_adjInv draws b 0 b' hdims hdraws base hsucc (x, y) hx hy

/-- Witness for the amended C2 at the concrete cell `(1, 1)`. -/
theorem C2_witness :
    adjAt minedBoard3 (1, 1) = neighborMineCount minedBoard3 3 3 1 1 +
      (if mineAt minedBoard3 (1, 1) = true then 1 else 0) :=
  @C2_placeMines_adjacentMines { rows := 3, columns := 3, mines := 1 }
    (initializeBoard { rows := 3, columns := 3, mines := 1 }) minedBoard3 0 0 [(2, 2)]
    (by decide) (by decide) (by decide) (by decide) (by decide) 1 1 (by decide) (by decide)

/-- C9 counterexample: the 3×3/1 config satisfies
`mines ≤ rows×columns − |safe zone|`, yet on the adversarial stream that always
draws the safe-zone cell `(0, 0)` the placement loop never finishes, however
long a prefix of the stream it consumes — there is no retry cap and no
sampling without replacement. -/
theorem C9_counterexample :
    BoardConfig.mines { rows := 3, columns := 3, mines := 1 } ≤
        3 * 3 - (boxCoords 3 3 0 0).length ∧
      placeMinesDiverges (initializeBoard { rows := 3, columns := 3, mines := 1 })
        { rows := 3, columns := 3, mines := 1 } 0 0 (0, 0) := by
  refine ⟨by decide, ?_⟩
  intro n
  induction n with
  | zero => decide
  | succ n ih =>
    rw [List.replicate_succ]
    unfold placeMines at ih ⊢
    unfold placeMinesLoop
    rw [if_neg (by decide), if_neg (by decide)]
    exact ih

/-- C9 (amended): the mine-placement loop terminates whenever the random
stream offers at least `config.mines` pairwise-distinct in-range draws that
avoid the safe zone and the already-mined cells; it has no retry cap and
samples with replacement, so it spins forever on streams that never supply
such draws (see the counterexample). -/
theorem C9_placeMines_total {cfg : BoardConfig} {b : Board} {fx fy : Nat}
    {draws : List (Nat × Nat)}
    (hdims : DimsEq b cfg) (hnd : draws.Nodup)
    (helig : ∀ d ∈ draws, d ∉ boxCoords cfg.rows cfg.columns fx fy ∧
      mineAt b d = false ∧ d.1 < cfg.columns ∧ d.2 < cfg.rows)
    (hlen : cfg.mines ≤ draws.length) :
    ∃ b', placeMines b cfg fx fy draws = some b' :=
  placeMinesLoop_total draws b 0 hnd helig hdims (by omega)

/-- Witness for the amended C9 on a concrete 3×3 board with one eligible
draw. -/
theorem C9_witness :
    ∃ b', placeMines (initializeBoard { rows := 3, columns := 3, mines := 1 })
      { rows := 3, columns := 3, mines := 1 } 0 0 [(2, 2)] = some b' :=
  @C9_placeMines_total { rows := 3, columns := 3, mines := 1 }
    (initializeBoard { rows := 3, columns := 3, mines := 1 }) 0 0 [(2, 2)]
    (by decide) (by decide) (by decide) (by decide)

/-! ### Claim C4: the win condition -/

/-- C4 counterexample: a 1×1 board whose only cell is a revealed mine. The set
of unrevealed cells (empty) differs from the set of mine cells, yet
`checkWinCondition` returns true — it never requires mines to be unrevealed. -/
theorem C4_counterexample :
    checkWinCondition oneRevealedMine = true ∧
      mineAt oneRevealedMine (0, 0) = true ∧
      revAt oneRevealedMine (0, 0) = true := by
  decide

/-- C4 (amended): `checkWinCondition` returns true iff every non-mine cell of
the scanned grid (`board.length` rows by `board[0].length` columns) is
revealed; it places no requirement on mine cells. -/
theorem C4_checkWinCondition_iff (b : Board) :
    checkWinCondition b = true ↔
      ∀ y : Nat, y < b.length → ∀ x : Nat, x < (b.getD 0 []).length →
        (cellAt b x y).isMine = false → (cellAt b x y).isRevealed = true := by
  unfold checkWinCondition
  rw [List.all_eq_true]
  constructor
  · intro h y hy x hx hm
    have h1 := h y (List.mem_range.mpr hy)
    rw [List.all_eq_true] at h1
    have h2 := h1 x (List.mem_range.mpr hx)
    rcases Bool.or_eq_true_iff.mp h2 with h3 | h3
    · rw [hm] at h3; exact absurd h3 (by simp)
    · exact h3
  · intro h y hy
    rw [List.all_eq_true]
    intro x hx
    rw [List.mem_range] at hy hx
    by_cases hm : (cellAt b x y).isMine = true
    · simp [hm]
    · simp only [Bool.not_eq_true] at hm
      simp [h y hy x hx hm]

/-- Witness instantiating the amended C4 at the revealed-mine board. -/
theorem C4_witness :
    checkWinCondition oneRevealedMine = true ↔
      ∀ y : Nat, y < oneRevealedMine.length →
        ∀ x : Nat, x < (oneRevealedMine.getD 0 []).length →
        (cellAt oneRevealedMine x y).isMine = false →
        (cellAt oneRevealedMine x y).isRevealed = true :=
  C4_checkWinCondition_iff oneRevealedMine

/-! ### Claim C10: setDifficulty frame -/

/-- C10 counterexample: on a custom 1×5/1 engine, `setDifficulty` to a 1×5/2
config leaves board, status, counter, and first-click flag untouched — but it
also eagerly replaces the cached `config`, and a first click performed before
any `resetGame` already places the *new* config's two mines: the new
configuration takes effect on the board without `resetGame` being called. -/
theorem C10_counterexample :
    engine15newDiff.board = engine15.board ∧
      engine15newDiff.gameStatus = engine15.gameStatus ∧
      engine15newDiff.minesRemaining = engine15.minesRemaining ∧
      engine15newDiff.isFirstClick = true ∧
      engine15newDiff.config ≠ engine15.config ∧
      engine15.config.mines = 1 ∧
      mineCount engine15newDiffClicked.board = 2 := by
  decide

/-- C10 (amended): `setDifficulty` updates the stored difficulty, the stored
custom config *and* the cached active config, leaving `board`, `gameStatus`,
`minesRemaining` and `isFirstClick` unchanged; a subsequent `resetGame`
rebuilds the state from the new configuration (identically to a freshly
constructed engine). A first click issued before `resetGame`, however, already
uses the new configuration for mine placement (see the counterexample). -/
theorem C10_setDifficulty_frame (s : GameEngine) (d : Difficulty)
    (cc : Option BoardConfig) :
    (setDifficulty s d cc).board = s.board ∧
      (setDifficulty s d cc).gameStatus = s.gameStatus ∧
      (setDifficulty s d cc).minesRemaining = s.minesRemaining ∧
      (setDifficulty s d cc).isFirstClick = s.isFirstClick ∧
      (setDifficulty s d cc).difficulty = d ∧
      (setDifficulty s d cc).customConfig = cc ∧
      (setDifficulty s d cc).config = getConfig d cc ∧
      resetGame (setDifficulty s d cc) = GameEngine.init d cc := by
  refine ⟨rfl, rfl, rfl, rfl, rfl, rfl, rfl, rfl⟩

/-! ### Toggle-twice and rejection lemmas for the engine -/

theorem updateNth_updateNth (f g : α → α) : ∀ (n : Nat) (l : List α),
    updateNth g n (updateNth f n l) = updateNth (fun a => g (f a)) n l := by
  intro n l
  induction l generalizing n with
  | nil => cases n <;> rfl
  | cons c cs ih =>
    cases n with
    | zero => rfl
    | succ m => simpa [updateNth] using ih m

theorem updateNth_id : ∀ (n : Nat) (l : List α), updateNth (fun a => a) n l = l := by
  intro n l
  induction l generalizing n with
  | nil => cases n <;> rfl
  | cons c cs ih =>
    cases n with
    | zero => rfl
    | succ m => simpa [updateNth] using ih m

theorem updateCell_updateCell (b : Board) (x y : Nat) (f g : CellData → CellData) :
    updateCell (updateCell b x y f) x y g = updateCell b x y (fun c => g (f c)) := by
  unfold updateCell
  rw [updateNth_updateNth]
  have : (fun row => updateNth g x (updateNth f x row)) =
      fun row => updateNth (fun c => g (f c)) x row :=
    funext fun row => updateNth_updateNth f g x row
  rw [this]

theorem updateCell_id (b : Board) (x y : Nat) :
    updateCell b x y (fun c => c) = b := by
  unfold updateCell
  have : (fun row => updateNth (fun c : CellData => c) x row) = fun row : List CellData => row :=
    funext fun row => updateNth_id x row
  rw [this, updateNth_id]

theorem flagFlip_flagFlip (c : CellData) :
    { { c with isFlagged := !c.isFlagged } with
      isFlagged := !{ c with isFlagged := !c.isFlagged }.isFlagged } = c := by
  cases c
  simp

/-- Flipping the flag twice restores the board. -/
theorem updateCell_flag_twice (b : Board) (x y : Nat) :
    updateCell (updateCell b x y fun c => { c with isFlagged := !c.isFlagged }) x y
      (fun c => { c with isFlagged := !c.isFlagged }) = b := by
  rw [updateCell_updateCell]
  have : (fun c => { { c with isFlagged := !c.isFlagged } with
      isFlagged := !{ c with isFlagged := !c.isFlagged }.isFlagged }) =
      fun c : CellData => c := funext fun c => flagFlip_flagFlip c
  rw [this, updateCell_id]

/-! ### Claim C8: flag round trip -/

/-- C8: on a non-terminal state and an unrevealed, unflagged, in-bounds cell,
flagging twice at the same coordinate restores the entire state: the first
call returns `boardChanged := true`, sets the flag and decrements
`minesRemaining` by exactly 1 (no clamping — the counter is an integer), the
second call returns `boardChanged := true` and restores the board and the
counter, for both the `GameEngine` handler and the `useGameState` hook
handler. -/
theorem C8_flag_roundTrip :
    (∀ (s : GameEngine) (x y : Nat),
      s.gameStatus ≠ GameStatus.won → s.gameStatus ≠ GameStatus.lost →
      (cellAt s.board x y).isRevealed = false →
      (cellAt s.board x y).isFlagged = false →
      inBoard s.board x y →
      (handleCellFlag s x y).1.boardChanged = true ∧
        (handleCellFlag s x y).2.minesRemaining = s.minesRemaining - 1 ∧
        (cellAt (handleCellFlag s x y).2.board x y).isFlagged = true ∧
        (handleCellFlag (handleCellFlag s x y).2 x y).1.boardChanged = true ∧
        (handleCellFlag (handleCellFlag s x y).2 x y).2 = s) ∧
    (∀ (hs : HookState) (x y : Nat),
      hs.gameStatus ≠ GameStatus.won → hs.gameStatus ≠ GameStatus.lost →
      (cellAt hs.board x y).isRevealed = false →
      (cellAt hs.board x y).isFlagged = false →
      inBoard hs.board x y →
      (hookHandleCellFlag hs x y).minesRemaining = hs.minesRemaining - 1 ∧
        (cellAt (hookHandleCellFlag hs x y).board x y).isFlagged = true ∧
        hookHandleCellFlag (hookHandleCellFlag hs x y) x y = hs) := by
  constructor
  · intro s x y hw hl hrev hflag hin
    obtain ⟨bd, st, df, cf, mr, fc, cg⟩ := s
    simp only at hw hl hrev hflag hin
    have hguard : ¬(st = GameStatus.won ∨ st = GameStatus.lost ∨
        (cellAt bd x y).isRevealed = true) := by
      simp [hw, hl, hrev]
    have htog : toggleFlag bd x y =
        updateCell bd x y fun c => { c with isFlagged := !c.isFlagged } := by
      unfold toggleFlag
      rw [if_neg (by simp [hrev])]
    have hcell1 : cellAt (updateCell bd x y
        fun c => { c with isFlagged := !c.isFlagged }) x y =
        { cellAt bd x y with isFlagged := !(cellAt bd x y).isFlagged } :=
      cellAt_updateCell_self _ hin
    have hflag1 : (cellAt (updateCell bd x y
        fun c => { c with isFlagged := !c.isFlagged }) x y).isFlagged = true := by
      rw [hcell1]
      simp [hflag]
    have hrev1 : (cellAt (updateCell bd x y
        fun c => { c with isFlagged := !c.isFlagged }) x y).isRevealed = false := by
      rw [hcell1]
      simpa using hrev
    have hstep1 : handleCellFlag ⟨bd, st, df, cf, mr, fc, cg⟩ x y =
        ({ boardChanged := true,
            board := updateCell bd x y fun c => { c with isFlagged := !c.isFlagged },
            minesRemaining := mr - 1 },
          ⟨updateCell bd x y fun c => { c with isFlagged := !c.isFlagged },
            st, df, cf, mr - 1, fc, cg⟩) := by
      unfold handleCellFlag
      rw [if_neg (by simpa using hguard)]
      simp [htog, hflag1]
    rw [hstep1]
    have hguard2 : ¬(st = GameStatus.won ∨ st = GameStatus.lost ∨
        (cellAt (updateCell bd x y
          fun c => { c with isFlagged := !c.isFlagged }) x y).isRevealed = true) := by
      simp [hw, hl, hrev1]
    have htog2 : toggleFlag (updateCell bd x y
        fun c => { c with isFlagged := !c.isFlagged }) x y =
        updateCell (updateCell bd x y fun c => { c with isFlagged := !c.isFlagged }) x y
          fun c => { c with isFlagged := !c.isFlagged } := by
      unfold toggleFlag
      rw [if_neg (by simp [hrev1])]
    have hflag2 : (cellAt (updateCell (updateCell bd x y
        fun c => { c with isFlagged := !c.isFlagged }) x y
        fun c => { c with isFlagged := !c.isFlagged }) x y).isFlagged = false := by
      rw [cellAt_updateCell_self _ ((inBoard_updateCell _).mpr hin), hflag1]
      simp
    have hstep2 : handleCellFlag
        (⟨updateCell bd x y fun c => { c with isFlagged := !c.isFlagged },
          st, df, cf, mr - 1, fc, cg⟩ : GameEngine) x y =
        ({ boardChanged := true, board := bd, minesRemaining := mr - 1 + 1 },
          ⟨bd, st, df, cf, mr - 1 + 1, fc, cg⟩) := by
      unfold handleCellFlag
      rw [if_neg (by simpa using hguard2)]
      simp [htog2, hflag2, updateCell_flag_twice, hflag]
    rw [hstep2]
    refine ⟨rfl, rfl, hflag1, rfl, ?_⟩
    have hmr : mr - 1 + 1 = mr := by omega
    rw [hmr]
  · intro hs x y hw hl hrev hflag hin
    obtain ⟨bd, st, mr⟩ := hs
    simp only at hw hl hrev hflag hin
    have hguard : ¬(st = GameStatus.won ∨ st = GameStatus.lost ∨
        (cellAt bd x y).isRevealed = true) := by
      simp [hw, hl, hrev]
    have hcell1 : cellAt (updateCell bd x y
        fun c => { c with isFlagged := !c.isFlagged }) x y =
        { cellAt bd x y with isFlagged := !(cellAt bd x y).isFlagged } :=
      cellAt_updateCell_self _ hin
    have hflag1 : (cellAt (updateCell bd x y
        fun c => { c with isFlagged := !c.isFlagged }) x y).isFlagged = true := by
      rw [hcell1]
      simp [hflag]
    have hrev1 : (cellAt (updateCell bd x y
        fun c => { c with isFlagged := !c.isFlagged }) x y).isRevealed = false := by
      rw [hcell1]
      simpa using hrev
    have hstep1 : hookHandleCellFlag ⟨bd, st, mr⟩ x y =
        ⟨updateCell bd x y fun c => { c with isFlagged := !c.isFlagged },
          st, mr - 1⟩ := by
      unfold hookHandleCellFlag
      rw [if_neg (by simpa using hguard)]
      simp [hflag1]
    rw [hstep1]
    have hguard2 : ¬(st = GameStatus.won ∨ st = GameStatus.lost ∨
        (cellAt (updateCell bd x y
          fun c => { c with isFlagged := !c.isFlagged }) x y).isRevealed = true) := by
      simp [hw, hl, hrev1]
    have hflag2 : (cellAt (updateCell (updateCell bd x y
        fun c => { c with isFlagged := !c.isFlagged }) x y
        fun c => { c with isFlagged := !c.isFlagged }) x y).isFlagged = false := by
      rw [cellAt_updateCell_self _ ((inBoard_updateCell _).mpr hin), hflag1]
      simp
    have hstep2 : hookHandleCellFlag
        (⟨updateCell bd x y fun c => { c with isFlagged := !c.isFlagged },
          st, mr - 1⟩ : HookState) x y = ⟨bd, st, mr - 1 + 1⟩ := by
      unfold hookHandleCellFlag
      rw [if_neg (by simpa using hguard2)]
      simp [hflag2, updateCell_flag_twice, hflag]
    rw [hstep2]
    refine ⟨rfl, hflag1, ?_⟩
    have hmr : mr - 1 + 1 = mr := by omega
    rw [hmr]

/-- Witness for C8: a fresh custom 2×2 engine and the matching hook state,
flagged twice at `(1, 1)`. -/
theorem C8_witness :
    ((handleCellFlag engine22 1 1).1.boardChanged = true ∧
      (handleCellFlag engine22 1 1).2.minesRemaining = engine22.minesRemaining - 1 ∧
      (cellAt (handleCellFlag engine22 1 1).2.board 1 1).isFlagged = true ∧
      (handleCellFlag (handleCellFlag engine22 1 1).2 1 1).1.boardChanged = true ∧
      (handleCellFlag (handleCellFlag engine22 1 1).2 1 1).2 = engine22) ∧
    ((hookHandleCellFlag hook22 1 1).minesRemaining = hook22.minesRemaining - 1 ∧
      (cellAt (hookHandleCellFlag hook22 1 1).board 1 1).isFlagged = true ∧
      hookHandleCellFlag (hookHandleCellFlag hook22 1 1) 1 1 = hook22) :=
  ⟨C8_flag_roundTrip.1 engine22 1 1 (by decide) (by decide) (by decide) (by decide)
      (by decide),
   C8_flag_roundTrip.2 hook22 1 1 (by decide) (by decide) (by decide) (by decide)
      (by decide)⟩

/-! ### Claim C5: policy rejections -/

theorem revealCellF_of_stop {fuel : Nat} {b : Board} {x y : Nat}
    (h : (cellAt b x y).isRevealed = true ∨ (cellAt b x y).isFlagged = true) :
    revealCellF fuel b x y = b := by
  cases fuel with
  | zero => rfl
  | succ n =>
    unfold revealCellF
    rw [if_pos h]

theorem revealCell_of_stop {b : Board} {x y : Nat}
    (h : (cellAt b x y).isRevealed = true ∨ (cellAt b x y).isFlagged = true) :
    revealCell b x y = b :=
  revealCellF_of_stop h

/-- C5 (amended): clicking a flagged cell or clicking in a terminal status,
and flagging a revealed cell, are rejected with `boardChanged := false` and a
completely unchanged state; but clicking an already-revealed (unflagged,
non-mine) cell after the first click is *not* guarded: the board content,
`minesRemaining` and (in play, where the win condition is false) the status
are unchanged, yet the handler reports `boardChanged := true`. No case
throws — every call returns a result. -/
theorem C5_policy_rejections :
    (∀ (s : GameEngine) (x y : Nat) (draws : List (Nat × Nat)),
      s.gameStatus = GameStatus.won ∨ s.gameStatus = GameStatus.lost ∨
        (cellAt s.board x y).isFlagged = true →
      handleCellClick s x y draws =
        some ({ boardChanged := false, board := s.board, status := s.gameStatus }, s)) ∧
    (∀ (s : GameEngine) (x y : Nat),
      s.gameStatus = GameStatus.won ∨ s.gameStatus = GameStatus.lost ∨
        (cellAt s.board x y).isRevealed = true →
      handleCellFlag s x y =
        ({ boardChanged := false, board := s.board,
           minesRemaining := s.minesRemaining }, s)) ∧
    (∀ (s : GameEngine) (x y : Nat) (draws : List (Nat × Nat)),
      s.gameStatus ≠ GameStatus.won → s.gameStatus ≠ GameStatus.lost →
      s.isFirstClick = false →
      (cellAt s.board x y).isRevealed = true →
      (cellAt s.board x y).isFlagged = false →
      (cellAt s.board x y).isMine = false →
      handleCellClick s x y draws =
        some ({ boardChanged := true, board := s.board,
                status := if checkWinCondition s.board = true then GameStatus.won
                  else s.gameStatus },
          { s with
            gameStatus := if checkWinCondition s.board = true then GameStatus.won
              else s.gameStatus })) := by
  refine ⟨?_, ?_, ?_⟩
  · intro s x y draws h
    unfold handleCellClick
    rw [if_pos h]
  · intro s x y h
    unfold handleCellFlag
    rw [if_pos h]
  · intro s x y draws hw hl hfc hrev hflag hmine
    unfold handleCellClick
    rw [if_neg (by simp [hw, hl, hflag])]
    rw [if_neg (by simp [hfc])]
    rw [if_neg (by simp [hmine])]
    simp only [revealCell_of_stop (Or.inl hrev)]

/-- C5 counterexample: a reachable playing state with `(0, 0)` already
revealed and unflagged; clicking it again leaves the state unchanged but
returns `boardChanged := true`, contradicting the claimed
`boardChanged: false`. -/
theorem C5_counterexample :
    Reachable engine15clicked ∧
      engine15clicked.gameStatus = GameStatus.playing ∧
      (cellAt engine15clicked.board 0 0).isRevealed = true ∧
      (cellAt engine15clicked.board 0 0).isFlagged = false ∧
      handleCellClick engine15clicked 0 0 [] =
        some ({ boardChanged := true, board := engine15clicked.board,
                status := GameStatus.playing }, engine15clicked) := by
  refine ⟨?_, by decide, by decide, by decide, by decide⟩
  refine Reachable.click 0 0 [(3, 0)]
    { boardChanged := true, board := engine15clicked.board,
      status := GameStatus.playing } engine15clicked
    (Reachable.init Difficulty.custom (some { rows := 1, columns := 5, mines := 1 }))
    (by decide) (by decide)

/-- Witness for the amended C5: the won-state guard, the revealed-cell flag
guard, and the revealed-cell click, each at a concrete state. -/
theorem C5_witness :
    (handleCellClick engine15won 1 0 [] =
      some ({ boardChanged := false, board := engine15won.board,
              status := engine15won.gameStatus }, engine15won)) ∧
    (handleCellFlag engine15clicked 0 0 =
      ({ boardChanged := false, board := engine15clicked.board,
         minesRemaining := engine15clicked.minesRemaining }, engine15clicked)) ∧
    (handleCellClick engine15clicked 0 0 [] =
      some ({ boardChanged := true, board := engine15clicked.board,
              status := if checkWinCondition engine15clicked.board = true then
                GameStatus.won else engine15clicked.gameStatus },
        { engine15clicked with
          gameStatus := if checkWinCondition engine15clicked.board = true then
            GameStatus.won else engine15clicked.gameStatus })) :=
  ⟨C5_policy_rejections.1 engine15won 1 0 [] (Or.inl rfl),
   C5_policy_rejections.2.1 engine15clicked 0 0 (Or.inr (Or.inr (by decide))),
   C5_policy_rejections.2.2 engine15clicked 0 0 [] (by decide) (by decide) (by decide)
     (by decide) (by decide) (by decide)⟩

/-! ### Cascade machinery: shape, monotonicity, and the revealed target -/

theorem length_revealNeighbors (reveal1 : Board → Nat → Nat → Board)
    (h1 : ∀ (B : Board) (x y : Nat), (reveal1 B x y).length = B.length) :
    ∀ (ps : List (Nat × Nat)) (B : Board),
      (revealNeighbors reveal1 ps B).length = B.length := by
  intro ps
  induction ps with
  | nil => intro B; rfl
  | cons p rest ih =>
    intro B
    unfold revealNeighbors
    rw [ih]
    by_cases h : (cellAt B p.1 p.2).isRevealed = false
    · rw [if_pos h, h1]
    · rw [if_neg h]

theorem rowLen_revealNeighbors (reveal1 : Board → Nat → Nat → Board)
    (h1 : ∀ (B : Board) (x y i : Nat),
      ((reveal1 B x y).getD i []).length = (B.getD i []).length) :
    ∀ (ps : List (Nat × Nat)) (B : Board) (i : Nat),
      ((revealNeighbors reveal1 ps B).getD i []).length = (B.getD i []).length := by
  intro ps
  induction ps with
  | nil => intro B i; rfl
  | cons p rest ih =>
    intro B i
    unfold revealNeighbors
    rw [ih]
    by_cases h : (cellAt B p.1 p.2).isRevealed = false
    · rw [if_pos h, h1]
    · rw [if_neg h]

theorem length_revealCellF : ∀ (fuel : Nat) (b : Board) (x y : Nat),
    (revealCellF fuel b x y).length = b.length := by
  intro fuel
  induction fuel with
  | zero => intro b x y; rfl
  | succ f ih =>
    intro b x y
    unfold revealCellF
    by_cases h1 : (cellAt b x y).isRevealed = true ∨ (cellAt b x y).isFlagged = true
    · rw [if_pos h1]
    · rw [if_neg h1]
      by_cases h2 : (cellAt (updateCell b x y fun c => { c with isRevealed := true })
            x y).adjacentMines = 0 ∧
          (cellAt (updateCell b x y fun c => { c with isRevealed := true })
            x y).isMine = false
      · rw [if_pos h2, length_revealNeighbors _ ih, length_updateCell]
      · rw [if_neg h2, length_updateCell]

theorem rowLen_revealCellF : ∀ (fuel : Nat) (b : Board) (x y i : Nat),
    ((revealCellF fuel b x y).getD i []).length = (b.getD i []).length := by
  intro fuel
  induction fuel with
  | zero => intro b x y i; rfl
  | succ f ih =>
    intro b x y i
    unfold revealCellF
    by_cases h1 : (cellAt b x y).isRevealed = true ∨ (cellAt b x y).isFlagged = true
    · rw [if_pos h1]
    · rw [if_neg h1]
      by_cases h2 : (cellAt (updateCell b x y fun c => { c with isRevealed := true })
            x y).adjacentMines = 0 ∧
          (cellAt (updateCell b x y fun c => { c with isRevealed := true })
            x y).isMine = false
      · rw [if_pos h2, rowLen_revealNeighbors _ ih, rowLen_updateCell]
      · rw [if_neg h2, rowLen_updateCell]

theorem extendsRefl (b : Board) : Extends b b :=
  ⟨rfl, fun _ => rfl, fun _ => ⟨rfl, rfl, rfl, fun h => h⟩⟩

theorem extendsTrans {a b c : Board} (h1 : Extends a b) (h2 : Extends b c) :
    Extends a c := by
  refine ⟨h2.1.trans h1.1, fun i => (h2.2.1 i).trans (h1.2.1 i), fun p => ?_⟩
  obtain ⟨f1, m1, a1, r1⟩ := h1.2.2 p
  obtain ⟨f2, m2, a2, r2⟩ := h2.2.2 p
  exact ⟨f2.trans f1, m2.trans m1, a2.trans a1, fun h => r2 (r1 h)⟩

theorem extends_updateRev (b : Board) (x y : Nat) :
    Extends b (updateCell b x y fun c => { c with isRevealed := true }) := by
  refine ⟨length_updateCell b x y _, fun i => rowLen_updateCell b x y _ i, fun p => ?_⟩
  refine ⟨cellAt_updateCell_field (fun c => c.isFlagged)
      (fun c => { c with isRevealed := true }) (fun _ => rfl) b x y p.1 p.2,
    cellAt_updateCell_field (fun c => c.isMine)
      (fun c => { c with isRevealed := true }) (fun _ => rfl) b x y p.1 p.2,
    cellAt_updateCell_field (fun c => c.adjacentMines)
      (fun c => { c with isRevealed := true }) (fun _ => rfl) b x y p.1 p.2,
    ?_⟩
  intro hr
  by_cases hb : inBoard b x y
  · by_cases hp : p.1 = x ∧ p.2 = y
    · unfold revAt
      rw [hp.1, hp.2, cellAt_updateCell_self _ hb]
    · unfold revAt at hr ⊢
      rw [cellAt_updateCell_ne _ (by omega)]
      exact hr
  · rw [updateCell_oob _ hb]
    exact hr

theorem revealNeighbors_extends (reveal1 : Board → Nat → Nat → Board)
    (h1 : ∀ (B : Board) (x y : Nat), Extends B (reveal1 B x y)) :
    ∀ (ps : List (Nat × Nat)) (B : Board),
      Extends B (revealNeighbors reveal1 ps B) := by
  intro ps
  induction ps with
  | nil => intro B; exact extendsRefl B
  | cons p rest ih =>
    intro B
    unfold revealNeighbors
    by_cases h : (cellAt B p.1 p.2).isRevealed = false
    · rw [if_pos h]
      exact extendsTrans (h1 B p.1 p.2) (ih _)
    · rw [if_neg h]
      exact ih B

theorem revealCellF_extends : ∀ (fuel : Nat) (b : Board) (x y : Nat),
    Extends b (revealCellF fuel b x y) := by
  intro fuel
  induction fuel with
  | zero => intro b x y; exact extendsRefl b
  | succ f ih =>
    intro b x y
    unfold revealCellF
    by_cases h1 : (cellAt b x y).isRevealed = true ∨ (cellAt b x y).isFlagged = true
    · rw [if_pos h1]
      exact extendsRefl b
    · rw [if_neg h1]
      by_cases h2 : (cellAt (updateCell b x y fun c => { c with isRevealed := true })
            x y).adjacentMines = 0 ∧
          (cellAt (updateCell b x y fun c => { c with isRevealed := true })
            x y).isMine = false
      · rw [if_pos h2]
        exact extendsTrans (extends_updateRev b x y)
          (revealNeighbors_extends _ ih _ _)
      · rw [if_neg h2]
        exact extends_updateRev b x y

theorem unrevealedCount_updateRev_eq {b : Board} {x y : Nat} (hb : inBoard b x y)
    (hrev : (cellAt b x y).isRevealed = false) :
    unrevealedCount (updateCell b x y fun c => { c with isRevealed := true }) + 1 =
      unrevealedCount b := by
  have h := countCells_updateCell (fun c => !c.isRevealed)
    (fun c => { c with isRevealed := true }) hb
  simp only [hrev] at h
  simp at h
  unfold unrevealedCount
  omega

theorem unrevealedCount_updateRev_le (b : Board) (x y : Nat) :
    unrevealedCount (updateCell b x y fun c => { c with isRevealed := true }) ≤
      unrevealedCount b := by
  by_cases hb : inBoard b x y
  · by_cases hrev : (cellAt b x y).isRevealed = false
    · have := unrevealedCount_updateRev_eq hb hrev
      omega
    · have h := countCells_updateCell (fun c => !c.isRevealed)
        (fun c => { c with isRevealed := true }) hb
      simp only [Bool.not_eq_false] at hrev
      simp only [hrev] at h
      simp at h
      unfold unrevealedCount
      omega
  · rw [updateCell_oob _ hb]

theorem unrevealedCount_revealNeighbors_le (reveal1 : Board → Nat → Nat → Board)
    (h1 : ∀ (B : Board) (x y : Nat), unrevealedCount (reveal1 B x y) ≤ unrevealedCount B) :
    ∀ (ps : List (Nat × Nat)) (B : Board),
      unrevealedCount (revealNeighbors reveal1 ps B) ≤ unrevealedCount B := by
  intro ps
  induction ps with
  | nil => intro B; exact Nat.le_refl _
  | cons p rest ih =>
    intro B
    unfold revealNeighbors
    by_cases h : (cellAt B p.1 p.2).isRevealed = false
    · rw [if_pos h]
      exact (ih _).trans (h1 B p.1 p.2)
    · rw [if_neg h]
      exact ih B

theorem unrevealedCount_revealCellF_le : ∀ (fuel : Nat) (b : Board) (x y : Nat),
    unrevealedCount (revealCellF fuel b x y) ≤ unrevealedCount b := by
  intro fuel
  induction fuel with
  | zero => intro b x y; exact Nat.le_refl _
  | succ f ih =>
    intro b x y
    unfold revealCellF
    by_cases h1 : (cellAt b x y).isRevealed = true ∨ (cellAt b x y).isFlagged = true
    · rw [if_pos h1]
    · rw [if_neg h1]
      by_cases h2 : (cellAt (updateCell b x y fun c => { c with isRevealed := true })
            x y).adjacentMines = 0 ∧
          (cellAt (updateCell b x y fun c => { c with isRevealed := true })
            x y).isMine = false
      · rw [if_pos h2]
        exact (unrevealedCount_revealNeighbors_le _ ih _ _).trans
          (unrevealedCount_updateRev_le b x y)
      · rw [if_neg h2]
        exact unrevealedCount_updateRev_le b x y

theorem revealCellF_reveals : ∀ (fuel : Nat) (b : Board) (x y : Nat), 0 < fuel →
    (cellAt b x y).isRevealed = false → (cellAt b x y).isFlagged = false →
    inBoard b x y → (cellAt (revealCellF fuel b x y) x y).isRevealed = true := by
  intro fuel b x y hf hrev hflag hin
  cases fuel with
  | zero => omega
  | succ f =>
    unfold revealCellF
    rw [if_neg (by simp [hrev, hflag])]
    have hb1 : (cellAt (updateCell b x y fun c => { c with isRevealed := true })
        x y).isRevealed = true := by
      rw [cellAt_updateCell_self _ hin]
    by_cases h2 : (cellAt (updateCell b x y fun c => { c with isRevealed := true })
          x y).adjacentMines = 0 ∧
        (cellAt (updateCell b x y fun c => { c with isRevealed := true })
          x y).isMine = false
    · rw [if_pos h2]
      have hext := revealNeighbors_extends _ (revealCellF_extends f)
        (boxCoords b.length (b.getD 0 []).length x y)
        (updateCell b x y fun c => { c with isRevealed := true })
      exact (hext.2.2 (x, y)).2.2.2 hb1
    · rw [if_neg h2]
      exact hb1

theorem countCells_pos_aux (P : CellData → Bool) : ∀ (b : Board) (x y : Nat),
    y < b.length → x < (b.getD y []).length →
    P ((b.getD y []).getD x defaultCell) = true → 0 < countCells P b := by
  intro b
  induction b with
  | nil => intro x y hy _ _; simp at hy
  | cons row rows ih =>
    intro x y hy hx hP
    unfold countCells
    cases y with
    | zero =>
      simp only [List.getD_cons_zero] at hP hx
      have hmem : row.getD x defaultCell ∈ row := by
        rw [List.getD_eq_getElem _ _ hx]
        exact List.getElem_mem hx
      have : 0 < row.countP P := List.countP_pos_iff.mpr ⟨_, hmem, hP⟩
      simp only [List.map_cons, List.sum_cons]
      omega
    | succ y' =>
      simp only [List.getD_cons_succ] at hP hx
      have h2 := ih x y' (by simpa using hy) hx hP
      unfold countCells at h2
      simp only [List.map_cons, List.sum_cons]
      omega

theorem countCells_pos {P : CellData → Bool} {b : Board} {x y : Nat}
    (hin : inBoard b x y) (hP : P (cellAt b x y) = true) : 0 < countCells P b :=
  countCells_pos_aux P b x y hin.1 hin.2 hP

theorem unrevealedCount_pos {b : Board} {x y : Nat} (hin : inBoard b x y)
    (hrev : (cellAt b x y).isRevealed = false) : 0 < unrevealedCount b :=
  countCells_pos hin (by simp [hrev])

/-! ### Cascade machinery: step equations and transfers -/

theorem cellAt_oob {b : Board} {x y : Nat} (h : ¬ inBoard b x y) :
    cellAt b x y = defaultCell := by
  unfold inBoard at h
  push_neg at h
  unfold cellAt
  by_cases hy : y < b.length
  · exact List.getD_eq_default _ _ (h hy)
  · have hrow : b.getD y [] = [] := List.getD_eq_default _ _ (by omega)
    rw [hrow, List.getD_nil]

theorem rect_iff {b : Board} : Rect b ↔
    ∀ i : Nat, i < b.length → (b.getD i []).length = (b.getD 0 []).length := by
  constructor
  · intro h i hi
    have hgd : b.getD i [] = b[i] := List.getD_eq_getElem b [] hi
    rw [hgd]
    exact h b[i] (List.getElem_mem hi)
  · intro h row hrow
    rw [List.mem_iff_getElem] at hrow
    obtain ⟨i, hi, rfl⟩ := hrow
    rw [← List.getD_eq_getElem b [] hi]
    exact h i hi

theorem rect_of_shape {b B : Board} (hrect : Rect b) (hlen : B.length = b.length)
    (hrow : ∀ i : Nat, (B.getD i []).length = (b.getD i []).length) : Rect B := by
  rw [rect_iff] at hrect ⊢
  intro i hi
  rw [hrow i, hrow 0, hlen] at *
  exact hrect i (by omega)

theorem inBoard_of_grid {b : Board} {x y : Nat} (hrect : Rect b)
    (hgrid : inGrid b x y) : inBoard b x y := by
  obtain ⟨hy, hx⟩ := hgrid
  refine ⟨hy, ?_⟩
  rw [rect_iff] at hrect
  rw [hrect y hy]
  exact hx

theorem boxCoords_bounds {R C x y : Nat} (hx : x < C) (hy : y < R) :
    ∀ r ∈ boxCoords R C x y, r.2 < R ∧ r.1 < C := by
  intro r hr
  rw [mem_boxCoords] at hr
  omega

theorem cellAt_updateRev_adj (b : Board) (x y x' y' : Nat) :
    (cellAt (updateCell b x y fun c => { c with isRevealed := true }) x' y').adjacentMines =
      (cellAt b x' y').adjacentMines :=
  cellAt_updateCell_field (fun c => c.adjacentMines)
    (fun c => { c with isRevealed := true }) (fun _ => rfl) b x y x' y'

theorem cellAt_updateRev_mine (b : Board) (x y x' y' : Nat) :
    (cellAt (updateCell b x y fun c => { c with isRevealed := true }) x' y').isMine =
      (cellAt b x' y').isMine :=
  cellAt_updateCell_field (fun c => c.isMine)
    (fun c => { c with isRevealed := true }) (fun _ => rfl) b x y x' y'

theorem cellAt_updateRev_flag (b : Board) (x y x' y' : Nat) :
    (cellAt (updateCell b x y fun c => { c with isRevealed := true }) x' y').isFlagged =
      (cellAt b x' y').isFlagged :=
  cellAt_updateCell_field (fun c => c.isFlagged)
    (fun c => { c with isRevealed := true }) (fun _ => rfl) b x y x' y'

theorem revealCellF_succ_go {f : Nat} {b : Board} {x y : Nat}
    (h1 : ¬((cellAt b x y).isRevealed = true ∨ (cellAt b x y).isFlagged = true))
    (h2 : (cellAt (updateCell b x y fun c => { c with isRevealed := true })
        x y).adjacentMines = 0 ∧
      (cellAt (updateCell b x y fun c => { c with isRevealed := true })
        x y).isMine = false) :
    revealCellF (f + 1) b x y =
      revealNeighbors (fun b' x' y' => revealCellF f b' x' y')
        (boxCoords b.length (b.getD 0 []).length x y)
        (updateCell b x y fun c => { c with isRevealed := true }) := by
  simp only [revealCellF]
  rw [if_neg h1, if_pos h2]

theorem revealCellF_succ_plain {f : Nat} {b : Board} {x y : Nat}
    (h1 : ¬((cellAt b x y).isRevealed = true ∨ (cellAt b x y).isFlagged = true))
    (h2 : ¬((cellAt (updateCell b x y fun c => { c with isRevealed := true })
        x y).adjacentMines = 0 ∧
      (cellAt (updateCell b x y fun c => { c with isRevealed := true })
        x y).isMine = false)) :
    revealCellF (f + 1) b x y = updateCell b x y fun c => { c with isRevealed := true } := by
  simp only [revealCellF]
  rw [if_neg h1, if_neg h2]

/-! ### Cascade closure: every neighbor of a newly revealed zero cell ends up
revealed -/

theorem revealNeighbors_covers (f : Nat) :
    ∀ (ps : List (Nat × Nat)) (B : Board), Rect B → unrevealedCount B < f →
    (∀ r ∈ ps, r.2 < B.length ∧ r.1 < (B.getD 0 []).length) →
    ∀ r ∈ ps, flagAt B r = false →
      revAt (revealNeighbors (fun b' x' y' => revealCellF f b' x' y') ps B) r = true := by
  intro ps
  induction ps with
  | nil =>
    intro B _ _ _ r hr
    simp at hr
  | cons p' rest ih2 =>
    intro B hrect hcount hbounds r hr hrflag
    unfold revealNeighbors
    by_cases hrev : (cellAt B p'.1 p'.2).isRevealed = false
    · rw [if_pos hrev]
      have hextf := revealCellF_extends f B p'.1 p'.2
      have hextr := revealNeighbors_extends _ (revealCellF_extends f) rest
        (revealCellF f B p'.1 p'.2)
      rcases List.mem_cons.mp hr with rfl | hrmem
      · have hbnd := hbounds r (List.mem_cons_self r rest)
        have hin : inBoard B r.1 r.2 := inBoard_of_grid hrect ⟨hbnd.1, hbnd.2⟩
        have hf : 0 < f := by
          have := unrevealedCount_pos hin hrev
          omega
        have hrevd := revealCellF_reveals f B r.1 r.2 hf hrev hrflag hin
        exact (hextr.2.2 r).2.2.2 hrevd
      · refine ih2 (revealCellF f B p'.1 p'.2)
          (rect_of_shape hrect (length_revealCellF f B p'.1 p'.2)
            (fun i => rowLen_revealCellF f B p'.1 p'.2 i))
          (by have := unrevealedCount_revealCellF_le f B p'.1 p'.2; omega)
          (fun r' hr' => by
            rw [length_revealCellF, rowLen_revealCellF]
            exact hbounds r' (List.mem_cons_of_mem _ hr'))
          r hrmem ?_
        rw [(hextf.2.2 r).1]
        exact hrflag
    · rw [if_neg hrev]
      rcases List.mem_cons.mp hr with rfl | hrmem
      · have hextr := revealNeighbors_extends _ (revealCellF_extends f) rest B
        exact (hextr.2.2 r).2.2.2 (by simpa using hrev)
      · exact ih2 B hrect hcount (fun r' hr' => hbounds r' (List.mem_cons_of_mem _ hr'))
          r hrmem hrflag

theorem revealNeighbors_closure (f : Nat)
    (ihmain : ∀ (b : Board) (x y : Nat), Rect b → inGrid b x y →
      unrevealedCount b < f →
      ∀ q : Nat × Nat, revAt b q = false → revAt (revealCellF f b x y) q = true →
        adjAt b q = 0 → mineAt b q = false →
        ∀ p ∈ boxCoords b.length (b.getD 0 []).length q.1 q.2, flagAt b p = false →
          revAt (revealCellF f b x y) p = true) :
    ∀ (ps : List (Nat × Nat)) (B : Board), Rect B → unrevealedCount B < f →
    (∀ r ∈ ps, r.2 < B.length ∧ r.1 < (B.getD 0 []).length) →
    ∀ q : Nat × Nat, revAt B q = false →
      revAt (revealNeighbors (fun b' x' y' => revealCellF f b' x' y') ps B) q = true →
      adjAt B q = 0 → mineAt B q = false →
      ∀ p ∈ boxCoords B.length (B.getD 0 []).length q.1 q.2, flagAt B p = false →
        revAt (revealNeighbors (fun b' x' y' => revealCellF f b' x' y') ps B) p = true := by
  intro ps
  induction ps with
  | nil =>
    intro B _ _ _ q hq0 hq1 _ _ p _ _
    unfold revealNeighbors at hq1
    rw [hq0] at hq1
    simp at hq1
  | cons p' rest ih2 =>
    intro B hrect hcount hbounds q hq0 hq1 hqa hqm p hp hpflag
    unfold revealNeighbors at hq1 ⊢
    by_cases hrev : (cellAt B p'.1 p'.2).isRevealed = false
    · rw [if_pos hrev] at hq1 ⊢
      have hextf := revealCellF_extends f B p'.1 p'.2
      by_cases hq2 : revAt (revealCellF f B p'.1 p'.2) q = true
      · have hbnd := hbounds p' (List.mem_cons_self p' rest)
        have hclosure := ihmain B p'.1 p'.2 hrect ⟨hbnd.1, hbnd.2⟩ hcount
          q hq0 hq2 hqa hqm p hp hpflag
        have hextr := revealNeighbors_extends _ (revealCellF_extends f) rest
          (revealCellF f B p'.1 p'.2)
        exact (hextr.2.2 p).2.2.2 hclosure
      · refine ih2 (revealCellF f B p'.1 p'.2)
          (rect_of_shape hrect (length_revealCellF f B p'.1 p'.2)
            (fun i => rowLen_revealCellF f B p'.1 p'.2 i))
          (by have := unrevealedCount_revealCellF_le f B p'.1 p'.2; omega)
          (fun r' hr' => by
            rw [length_revealCellF, rowLen_revealCellF]
            exact hbounds r' (List.mem_cons_of_mem _ hr'))
          q (by simpa using hq2) hq1 ?_ ?_ p ?_ ?_
        · rw [(hextf.2.2 q).2.2.1]
          exact hqa
        · rw [(hextf.2.2 q).2.1]
          exact hqm
        · rw [length_revealCellF, rowLen_revealCellF]
          exact hp
        · rw [(hextf.2.2 p).1]
          exact hpflag
    · rw [if_neg hrev] at hq1 ⊢
      exact ih2 B hrect hcount (fun r' hr' => hbounds r' (List.mem_cons_of_mem _ hr'))
        q hq0 hq1 hqa hqm p hp hpflag

theorem revealCellF_closure : ∀ (fuel : Nat) (b : Board) (x y : Nat),
    Rect b → inGrid b x y → unrevealedCount b < fuel →
    ∀ q : Nat × Nat, revAt b q = false → revAt (revealCellF fuel b x y) q = true →
      adjAt b q = 0 → mineAt b q = false →
      ∀ p ∈ boxCoords b.length (b.getD 0 []).length q.1 q.2, flagAt b p = false →
        revAt (revealCellF fuel b x y) p = true := by
  intro fuel
  induction fuel with
  | zero =>
    intro b x y _ _ hcount
    omega
  | succ f ih =>
    intro b x y hrect hgrid hcount q hq0 hq1 hqa hqm p hp hpflag
    by_cases h1 : (cellAt b x y).isRevealed = true ∨ (cellAt b x y).isFlagged = true
    · rw [revealCellF_of_stop h1] at hq1
      rw [hq0] at hq1
      simp at hq1
    · have hxrev : (cellAt b x y).isRevealed = false := by
        rcases Bool.eq_false_or_eq_true (cellAt b x y).isRevealed with h | h
        · exact absurd (Or.inl h) h1
        · exact h
      have hxin : inBoard b x y := inBoard_of_grid hrect hgrid
      by_cases h2 : (cellAt (updateCell b x y fun c => { c with isRevealed := true })
            x y).adjacentMines = 0 ∧
          (cellAt (updateCell b x y fun c => { c with isRevealed := true })
            x y).isMine = false
      · rw [revealCellF_succ_go h1 h2] at hq1 ⊢
        have hcnt1 := unrevealedCount_updateRev_eq hxin hxrev
        have hrect1 : Rect (updateCell b x y fun c => { c with isRevealed := true }) :=
          rect_of_shape hrect (length_updateCell b x y _)
            (fun i => rowLen_updateCell b x y _ i)
        have hbounds : ∀ r ∈ boxCoords b.length (b.getD 0 []).length x y,
            r.2 < (updateCell b x y fun c => { c with isRevealed := true }).length ∧
              r.1 < ((updateCell b x y
                fun c => { c with isRevealed := true }).getD 0 []).length := by
          intro r hr
          rw [length_updateCell, rowLen_updateCell]
          exact ⟨(boxCoords_bounds hgrid.2 hgrid.1 r hr).1,
            (boxCoords_bounds hgrid.2 hgrid.1 r hr).2⟩
        by_cases hqxy : q = (x, y)
        · subst hqxy
          refine revealNeighbors_covers f _ _ hrect1 (by omega) hbounds p hp ?_
          rw [((extends_updateRev b x y).2.2 p).1]
          exact hpflag
        · by_cases hq2 : revAt (updateCell b x y
              fun c => { c with isRevealed := true }) q = true
          · exfalso
            unfold revAt at hq2 hq0
            rw [cellAt_updateCell_ne _ (by
              by_contra hc
              push_neg at hc
              exact hqxy (Prod.ext hc.1 hc.2))] at hq2
            rw [hq0] at hq2
            simp at hq2
          · refine revealNeighbors_closure f ih _ _ hrect1 (by omega) hbounds
              q (by simpa using hq2) hq1 ?_ ?_ p ?_ ?_
            · unfold adjAt
              rw [cellAt_updateRev_adj]
              exact hqa
            · unfold mineAt
              rw [cellAt_updateRev_mine]
              exact hqm
            · rw [length_updateCell, rowLen_updateCell]
              exact hp
            · unfold flagAt
              rw [cellAt_updateRev_flag]
              exact hpflag
      · rw [revealCellF_succ_plain h1 h2] at hq1
        by_cases hqxy : q = (x, y)
        · exfalso
          apply h2
          rw [cellAt_updateRev_adj, cellAt_updateRev_mine]
          rw [hqxy] at hqa hqm
          exact ⟨hqa, hqm⟩
        · exfalso
          unfold revAt at hq1 hq0
          rw [cellAt_updateCell_ne _ (by
            by_contra hc
            push_neg at hc
            exact hqxy (Prod.ext hc.1 hc.2))] at hq1
          rw [hq0] at hq1
          simp at hq1

/-! ### Fuel irrelevance: the cascade terminates -/

theorem revealNeighbors_congr (f g : Nat)
    (hfg : ∀ (b : Board) (x y : Nat), Rect b → inGrid b x y →
      unrevealedCount b < f → unrevealedCount b < g →
      revealCellF f b x y = revealCellF g b x y) :
    ∀ (ps : List (Nat × Nat)) (B : Board), Rect B →
      unrevealedCount B < f → unrevealedCount B < g →
      (∀ r ∈ ps, r.2 < B.length ∧ r.1 < (B.getD 0 []).length) →
      revealNeighbors (fun b' x' y' => revealCellF f b' x' y') ps B =
        revealNeighbors (fun b' x' y' => revealCellF g b' x' y') ps B := by
  intro ps
  induction ps with
  | nil => intro B _ _ _ _; rfl
  | cons p' rest ih2 =>
    intro B hrect hf hg hbounds
    unfold revealNeighbors
    by_cases hrev : (cellAt B p'.1 p'.2).isRevealed = false
    · rw [if_pos hrev, if_pos hrev]
      have hbnd := hbounds p' (List.mem_cons_self p' rest)
      rw [← hfg B p'.1 p'.2 hrect ⟨hbnd.1, hbnd.2⟩ hf hg]
      refine ih2 (revealCellF f B p'.1 p'.2)
        (rect_of_shape hrect (length_revealCellF f B p'.1 p'.2)
          (fun i => rowLen_revealCellF f B p'.1 p'.2 i))
        (by have := unrevealedCount_revealCellF_le f B p'.1 p'.2; omega)
        (by have := unrevealedCount_revealCellF_le f B p'.1 p'.2; omega)
        (fun r' hr' => by
          rw [length_revealCellF, rowLen_revealCellF]
          exact hbounds r' (List.mem_cons_of_mem _ hr'))
    · rw [if_neg hrev, if_neg hrev]
      exact ih2 B hrect hf hg (fun r' hr' => hbounds r' (List.mem_cons_of_mem _ hr'))

theorem revealCellF_fuel_irrelevant : ∀ (f1 f2 : Nat) (b : Board) (x y : Nat),
    Rect b → inGrid b x y → unrevealedCount b < f1 → unrevealedCount b < f2 →
    revealCellF f1 b x y = revealCellF f2 b x y := by
  intro f1
  induction f1 with
  | zero => intro f2 b x y _ _ h _; omega
  | succ f ih =>
    intro f2 b x y hrect hgrid hf hg
    cases f2 with
    | zero => omega
    | succ g =>
      by_cases h1 : (cellAt b x y).isRevealed = true ∨ (cellAt b x y).isFlagged = true
      · rw [revealCellF_of_stop h1, revealCellF_of_stop h1]
      · by_cases h2 : (cellAt (updateCell b x y fun c => { c with isRevealed := true })
              x y).adjacentMines = 0 ∧
            (cellAt (updateCell b x y fun c => { c with isRevealed := true })
              x y).isMine = false
        · rw [revealCellF_succ_go h1 h2, revealCellF_succ_go h1 h2]
          have hxrev : (cellAt b x y).isRevealed = false := by
            rcases Bool.eq_false_or_eq_true (cellAt b x y).isRevealed with h | h
            · exact absurd (Or.inl h) h1
            · exact h
          have hxin : inBoard b x y := inBoard_of_grid hrect hgrid
          have hcnt1 := unrevealedCount_updateRev_eq hxin hxrev
          have hrect1 : Rect (updateCell b x y fun c => { c with isRevealed := true }) :=
            rect_of_shape hrect (length_updateCell b x y _)
              (fun i => rowLen_updateCell b x y _ i)
          refine revealNeighbors_congr f g
            (fun b' x' y' hr hgd h1' h2' => ih g b' x' y' hr hgd h1' h2')
            _ _ hrect1 (by omega) (by omega) ?_
          intro r hr
          rw [length_updateCell, rowLen_updateCell]
          exact ⟨(boxCoords_bounds hgrid.2 hgrid.1 r hr).1,
            (boxCoords_bounds hgrid.2 hgrid.1 r hr).2⟩
        · rw [revealCellF_succ_plain h1 h2, revealCellF_succ_plain h1 h2]

set_option maxRecDepth 100000

/-- C6: the reveal cascade terminates on every finite board. Each recursive
call targets a cell made revealed before recursing, so the number of
unrevealed cells strictly decreases along the recursion; here this surfaces as
fuel irrelevance: any two fuel budgets above `unrevealedCount b` give the same
board, so the unbounded TypeScript recursion has a well-defined value computed
by `revealCell`. In particular, revealing the center of the all-zero 3×3 board
terminates with all 9 cells revealed. -/
theorem C6_revealCell_terminates :
    (∀ (f1 f2 : Nat) (b : Board) (x y : Nat), Rect b → inGrid b x y →
        unrevealedCount b < f1 → unrevealedCount b < f2 →
        revealCellF f1 b x y = revealCellF f2 b x y) ∧
      revealCell zero3Board 1 1 = zero3Revealed :=
  ⟨revealCellF_fuel_irrelevant, by decide⟩

theorem C6_witness :
    Rect zero3Board ∧ inGrid zero3Board 1 1 ∧ unrevealedCount zero3Board < 10 ∧
      unrevealedCount zero3Board < 12 ∧
      revealCellF 10 zero3Board 1 1 = revealCellF 12 zero3Board 1 1 :=
  ⟨by decide, by decide, by decide, by decide,
    C6_revealCell_terminates.1 10 12 zero3Board 1 1 (by decide) (by decide)
      (by decide) (by decide)⟩

/-! ### The flood-fill region: completeness and soundness -/

theorem mem_boxCoords_of_adj {b : Board} {q r : Nat × Nat} (hadj : adjCoord q r)
    (hr2 : r.2 < b.length) (hr1 : r.1 < (b.getD 0 []).length) :
    r ∈ boxCoords b.length (b.getD 0 []).length q.1 q.2 := by
  rw [mem_boxCoords]
  obtain ⟨hne, h1, h2, h3, h4⟩ := hadj
  omega

theorem adj_of_mem_boxCoords {R C : Nat} {q p : Nat × Nat}
    (hp : p ∈ boxCoords R C q.1 q.2) (hne : p ≠ q) : adjCoord q p := by
  rw [mem_boxCoords] at hp
  obtain ⟨⟨ha, hb⟩, hc, hd⟩ := hp
  exact ⟨Ne.symm hne, by omega, by omega, by omega, by omega⟩

theorem mem_boxCoords_lt {R C x y : Nat} {p : Nat × Nat} (hp : p ∈ boxCoords R C x y)
    (hR : 0 < R) (hC : 0 < C) : p.2 < R ∧ p.1 < C := by
  rw [mem_boxCoords] at hp
  omega

theorem revealCellF_region (fuel : Nat) (b : Board) (x y : Nat) (hrect : Rect b)
    (hfuel : unrevealedCount b < fuel) (hc : zeroVertex b (x, y)) :
    ∀ q : Nat × Nat, ZeroReach b (x, y) q →
      ∀ p ∈ boxCoords b.length (b.getD 0 []).length q.1 q.2, flagAt b p = false →
        revAt (revealCellF fuel b x y) p = true := by
  intro q hq
  induction hq with
  | refl hzc =>
    intro p hp hpf
    have hxin : inBoard b x y := inBoard_of_grid hrect hc.1
    have hrev : (cellAt b x y).isRevealed = false := hc.2.1
    have hflag : (cellAt b x y).isFlagged = false := hc.2.2.1
    have hfpos : 0 < fuel := by
      have := unrevealedCount_pos hxin hrev
      omega
    have hq1 : revAt (revealCellF fuel b x y) (x, y) = true :=
      revealCellF_reveals fuel b x y hfpos hrev hflag hxin
    exact revealCellF_closure fuel b x y hrect hc.1 hfuel (x, y) hc.2.1 hq1
      hc.2.2.2.1 hc.2.2.2.2 p hp hpf
  | tail hq' hadj hzr ih =>
    rename_i q' r
    intro p hp hpf
    have hrmem : r ∈ boxCoords b.length (b.getD 0 []).length q'.1 q'.2 :=
      mem_boxCoords_of_adj hadj hzr.1.1 hzr.1.2
    have hrrev : revAt (revealCellF fuel b x y) r = true :=
      ih r hrmem hzr.2.2.1
    exact revealCellF_closure fuel b x y hrect hc.1 hfuel r hzr.2.1 hrrev
      hzr.2.2.2.1 hzr.2.2.2.2 p hp hpf

theorem revealNeighbors_sound (f : Nat) (b : Board) (c : Nat × Nat)
    (ihf : ∀ (B : Board) (x y : Nat), Extends b B → RegionBox b c (x, y) →
      ∀ p, revAt B p = false → revAt (revealCellF f B x y) p = true →
        RegionBox b c p ∧ flagAt b p = false) :
    ∀ (ps : List (Nat × Nat)) (B : Board), Extends b B →
      (∀ r ∈ ps, RegionBox b c r) →
      ∀ p, revAt B p = false →
        revAt (revealNeighbors (fun b' x' y' => revealCellF f b' x' y') ps B) p = true →
        RegionBox b c p ∧ flagAt b p = false := by
  intro ps
  induction ps with
  | nil =>
    intro B _ _ p hp0 hp1
    unfold revealNeighbors at hp1
    rw [hp0] at hp1
    simp at hp1
  | cons p' rest ih2 =>
    intro B hext hps p hp0 hp1
    unfold revealNeighbors at hp1
    by_cases hrev : (cellAt B p'.1 p'.2).isRevealed = false
    · rw [if_pos hrev] at hp1
      by_cases hp2 : revAt (revealCellF f B p'.1 p'.2) p = true
      · have hpp : RegionBox b c (p'.1, p'.2) := hps p' (List.mem_cons_self p' rest)
        exact ihf B p'.1 p'.2 hext hpp p hp0 hp2
      · exact ih2 (revealCellF f B p'.1 p'.2)
          (extendsTrans hext (revealCellF_extends f B p'.1 p'.2))
          (fun r hr => hps r (List.mem_cons_of_mem _ hr))
          p (by simpa using hp2) hp1
    · rw [if_neg hrev] at hp1
      exact ih2 B hext (fun r hr => hps r (List.mem_cons_of_mem _ hr)) p hp0 hp1

theorem revealCellF_sound : ∀ (f : Nat) (b B : Board) (c : Nat × Nat) (x y : Nat),
    0 < b.length → 0 < (b.getD 0 []).length →
    Extends b B → RegionBox b c (x, y) →
    ∀ p, revAt B p = false → revAt (revealCellF f B x y) p = true →
      RegionBox b c p ∧ flagAt b p = false := by
  intro f
  induction f with
  | zero =>
    intro b B c x y _ _ _ _ p hp0 hp1
    unfold revealCellF at hp1
    rw [hp0] at hp1
    simp at hp1
  | succ f ih =>
    intro b B c x y hR hC hext hinv p hp0 hp1
    by_cases h1 : (cellAt B x y).isRevealed = true ∨ (cellAt B x y).isFlagged = true
    · rw [revealCellF_of_stop h1] at hp1
      rw [hp0] at hp1
      simp at hp1
    · have hxrevB : (cellAt B x y).isRevealed = false := by
        rcases Bool.eq_false_or_eq_true (cellAt B x y).isRevealed with h | h
        · exact absurd (Or.inl h) h1
        · exact h
      have hxflagB : (cellAt B x y).isFlagged = false := by
        rcases Bool.eq_false_or_eq_true (cellAt B x y).isFlagged with h | h
        · exact absurd (Or.inr h) h1
        · exact h
      have hrevEq : (cellAt b x y).isRevealed = true → (cellAt B x y).isRevealed = true :=
        (hext.2.2 (x, y)).2.2.2
      have hflagEq : (cellAt B x y).isFlagged = (cellAt b x y).isFlagged :=
        (hext.2.2 (x, y)).1
      have hmineEq : (cellAt B x y).isMine = (cellAt b x y).isMine :=
        (hext.2.2 (x, y)).2.1
      have hadjEq : (cellAt B x y).adjacentMines = (cellAt b x y).adjacentMines :=
        (hext.2.2 (x, y)).2.2.1
      have hxrevb : (cellAt b x y).isRevealed = false := by
        rcases Bool.eq_false_or_eq_true (cellAt b x y).isRevealed with h | h
        · rw [hrevEq h] at hxrevB
          simp at hxrevB
        · exact h
      have hxflagb : (cellAt b x y).isFlagged = false := hflagEq.symm.trans hxflagB
      by_cases h2 : (cellAt (updateCell B x y fun c => { c with isRevealed := true })
            x y).adjacentMines = 0 ∧
          (cellAt (updateCell B x y fun c => { c with isRevealed := true })
            x y).isMine = false
      · rw [revealCellF_succ_go h1 h2] at hp1
        obtain ⟨q0, hq0reach, hq0mem⟩ := hinv
        have hgrid : inGrid b x y := by
          have := mem_boxCoords_lt hq0mem hR hC
          exact ⟨this.1, this.2⟩
        have hadjz : (cellAt b x y).adjacentMines = 0 := by
          have h2a := h2.1
          rw [cellAt_updateRev_adj] at h2a
          rw [hadjEq] at h2a
          exact h2a
        have hminez : (cellAt b x y).isMine = false := by
          have h2b := h2.2
          rw [cellAt_updateRev_mine] at h2b
          rw [hmineEq] at h2b
          exact h2b
        have hzc : zeroVertex b (x, y) := ⟨hgrid, hxrevb, hxflagb, hadjz, hminez⟩
        have hreach : ZeroReach b c (x, y) := by
          by_cases hqeq : (x, y) = q0
          · rw [hqeq]
            exact hq0reach
          · exact ZeroReach.tail hq0reach (adj_of_mem_boxCoords hq0mem hqeq) hzc
        by_cases hpxy : p = (x, y)
        · subst hpxy
          exact ⟨⟨(x, y), hreach, self_mem_boxCoords hgrid.2 hgrid.1⟩, hxflagb⟩
        · have hside : p.1 ≠ x ∨ p.2 ≠ y := by
            by_contra hcon
            push_neg at hcon
            exact hpxy (Prod.ext hcon.1 hcon.2)
          have hp0' : revAt (updateCell B x y fun c => { c with isRevealed := true }) p
              = false := by
            unfold revAt
            rw [cellAt_updateCell_ne _ hside]
            exact hp0
          rw [hext.1, hext.2.1 0] at hp1
          refine revealNeighbors_sound f b c
            (fun B' x' y' hext' hinv' p' hq0' hq1' =>
              ih b B' c x' y' hR hC hext' hinv' p' hq0' hq1')
            (boxCoords b.length (b.getD 0 []).length x y)
            (updateCell B x y fun c => { c with isRevealed := true })
            (extendsTrans hext (extends_updateRev B x y))
            ?_ p hp0' hp1
          intro r hr
          exact ⟨(x, y), hreach, hr⟩
      · rw [revealCellF_succ_plain h1 h2] at hp1
        by_cases hpxy : p = (x, y)
        · subst hpxy
          exact ⟨hinv, hxflagb⟩
        · exfalso
          have hside : p.1 ≠ x ∨ p.2 ≠ y := by
            by_contra hcon
            push_neg at hcon
            exact hpxy (Prod.ext hcon.1 hcon.2)
          unfold revAt at hp0 hp1
          rw [cellAt_updateCell_ne _ hside] at hp1
          rw [hp0] at hp1
          simp at hp1

/-- C3 (amended): from an unrevealed, unflagged, zero-adjacency, non-mine cell
`(x, y)` of a rectangular board, `revealCell` reveals exactly the previously
revealed cells plus the unflagged cells lying in the 3×3 box of some cell of
the zero region reachable from `(x, y)` — where the region propagates only
through unrevealed, unflagged zero cells, not through every zero-adjacency
cell as the claim words it. -/
theorem C3_revealCell_region (b : Board) (x y : Nat) (hrect : Rect b)
    (hc : zeroVertex b (x, y)) (p : Nat × Nat) :
    revAt (revealCell b x y) p = true ↔
      (revAt b p = true ∨ (flagAt b p = false ∧ RegionBox b (x, y) p)) := by
  constructor
  · intro h
    by_cases hp0 : revAt b p = true
    · exact Or.inl hp0
    · have hp0' : revAt b p = false := by simpa using hp0
      have hR : 0 < b.length := by
        have := hc.1.1
        omega
      have hC : 0 < (b.getD 0 []).length := by
        have := hc.1.2
        omega
      have hsound := revealCellF_sound (unrevealedCount b + 1) b b (x, y) x y hR hC
        (extendsRefl b)
        ⟨(x, y), ZeroReach.refl hc, self_mem_boxCoords hc.1.2 hc.1.1⟩
        p hp0' h
      exact Or.inr ⟨hsound.2, hsound.1⟩
  · intro h
    rcases h with h | ⟨hflag, q, hreach, hmem⟩
    · exact ((revealCellF_extends (unrevealedCount b + 1) b x y).2.2 p).2.2.2 h
    · exact revealCellF_region (unrevealedCount b + 1) b x y hrect (by omega) hc
        q hreach p hmem hflag

theorem C3_witness :
    Rect zero3Board ∧ zeroVertex zero3Board (1, 1) ∧
      (revAt (revealCell zero3Board 1 1) (2, 2) = true ↔
        (revAt zero3Board (2, 2) = true ∨
          (flagAt zero3Board (2, 2) = false ∧ RegionBox zero3Board (1, 1) (2, 2)))) :=
  ⟨by decide, by decide, C3_revealCell_region zero3Board 1 1 (by decide) (by decide) (2, 2)⟩

theorem C3_counterexample :
    adjAt flagBlockBoard (0, 0) = 0 ∧ mineAt flagBlockBoard (0, 0) = false ∧
      revAt flagBlockBoard (0, 0) = false ∧ flagAt flagBlockBoard (0, 0) = false ∧
      ZeroAdjReach flagBlockBoard (0, 0) (3, 0) ∧
      revAt (revealCell flagBlockBoard 0 0) (3, 0) = false := by
  refine ⟨by decide, by decide, by decide, by decide, ?_, by decide⟩
  have h0 : ZeroAdjReach flagBlockBoard (0, 0) (0, 0) :=
    ZeroAdjReach.refl (by decide)
  have h1 : ZeroAdjReach flagBlockBoard (0, 0) (1, 0) :=
    ZeroAdjReach.tail h0 (by decide) (by decide)
  have h2 : ZeroAdjReach flagBlockBoard (0, 0) (2, 0) :=
    ZeroAdjReach.tail h1 (by decide) (by decide)
  exact ZeroAdjReach.tail h2 (by decide) (by decide)

/-! ### The revealed-flagged exclusion invariant -/

theorem getD_map_range {α : Type} (f : Nat → α) (d : α) (n k : Nat) :
    ((List.range n).map f).getD k d = if k < n then f k else d := by
  by_cases h : k < n
  · rw [if_pos h, List.getD_eq_getElem _ _ (by simpa using h)]
    simp
  · rw [if_neg h, List.getD_eq_default _ _ (by simpa using h)]

theorem revAt_initializeBoard (cfg : BoardConfig) (p : Nat × Nat) :
    revAt (initializeBoard cfg) p = false := by
  unfold revAt cellAt initializeBoard
  rw [getD_map_range]
  by_cases hy : p.2 < cfg.rows
  · rw [if_pos hy, getD_map_range]
    by_cases hx : p.1 < cfg.columns
    · rw [if_pos hx]
    · rw [if_neg hx]
      rfl
  · rw [if_neg hy]
    rfl

theorem noRevFlag_updateRev {b : Board} {x y : Nat} (hinv : noRevFlag b)
    (hflag : (cellAt b x y).isFlagged = false) :
    noRevFlag (updateCell b x y fun c => { c with isRevealed := true }) := by
  intro p
  have hfl : flagAt (updateCell b x y fun c => { c with isRevealed := true }) p
      = flagAt b p := ((extends_updateRev b x y).2.2 p).1
  by_cases hp : p.1 = x ∧ p.2 = y
  · right
    rw [hfl]
    unfold flagAt
    rw [hp.1, hp.2]
    exact hflag
  · rcases hinv p with h | h
    · left
      unfold revAt at h ⊢
      rw [cellAt_updateCell_ne _ (by omega)]
      exact h
    · right
      rw [hfl]
      exact h

theorem noRevFlag_revealNeighbors (reveal1 : Board → Nat → Nat → Board)
    (h1 : ∀ (B : Board) (x y : Nat), noRevFlag B → noRevFlag (reveal1 B x y)) :
    ∀ (ps : List (Nat × Nat)) (B : Board), noRevFlag B →
      noRevFlag (revealNeighbors reveal1 ps B) := by
  intro ps
  induction ps with
  | nil => intro B h; exact h
  | cons p rest ih =>
    intro B hB
    unfold revealNeighbors
    by_cases h : (cellAt B p.1 p.2).isRevealed = false
    · rw [if_pos h]
      exact ih _ (h1 B p.1 p.2 hB)
    · rw [if_neg h]
      exact ih B hB

theorem noRevFlag_revealCellF : ∀ (fuel : Nat) (b : Board) (x y : Nat),
    noRevFlag b → noRevFlag (revealCellF fuel b x y) := by
  intro fuel
  induction fuel with
  | zero => intro b x y h; exact h
  | succ f ih =>
    intro b x y hinv
    by_cases h1 : (cellAt b x y).isRevealed = true ∨ (cellAt b x y).isFlagged = true
    · rw [revealCellF_of_stop h1]
      exact hinv
    · have hflag : (cellAt b x y).isFlagged = false := by
        rcases Bool.eq_false_or_eq_true (cellAt b x y).isFlagged with h | h
        · exact absurd (Or.inr h) h1
        · exact h
      by_cases h2 : (cellAt (updateCell b x y fun c => { c with isRevealed := true })
            x y).adjacentMines = 0 ∧
          (cellAt (updateCell b x y fun c => { c with isRevealed := true })
            x y).isMine = false
      · rw [revealCellF_succ_go h1 h2]
        exact noRevFlag_revealNeighbors _ (fun B x' y' hB => ih B x' y' hB) _ _
          (noRevFlag_updateRev hinv hflag)
      · rw [revealCellF_succ_plain h1 h2]
        exact noRevFlag_updateRev hinv hflag

theorem noRevFlag_toggleFlag {b : Board} {x y : Nat} (hinv : noRevFlag b) :
    noRevFlag (toggleFlag b x y) := by
  unfold toggleFlag
  by_cases h : (cellAt b x y).isRevealed = true
  · rw [if_pos h]
    exact hinv
  · rw [if_neg h]
    intro p
    by_cases hp : p.1 = x ∧ p.2 = y
    · left
      unfold revAt
      rw [hp.1, hp.2]
      by_cases hin : inBoard b x y
      · rw [cellAt_updateCell_self _ hin]
        simpa using h
      · rw [updateCell_oob _ hin]
        simpa using h
    · rcases hinv p with hr | hf
      · left
        unfold revAt at hr ⊢
        rw [cellAt_updateCell_ne _ (by omega)]
        exact hr
      · right
        unfold flagAt at hf ⊢
        rw [cellAt_updateCell_ne _ (by omega)]
        exact hf

theorem placeMinesLoop_revFlag : ∀ (draws : List (Nat × Nat)) (cfg : BoardConfig)
    (sz : List (Nat × Nat)) (b : Board) (n : Nat) (b' : Board),
    placeMinesLoop cfg sz draws b n = some b' →
    ∀ p, revAt b' p = revAt b p ∧ flagAt b' p = flagAt b p := by
  intro draws
  induction draws with
  | nil =>
    intro cfg sz b n b' h p
    unfold placeMinesLoop at h
    by_cases hc : cfg.mines ≤ n
    · rw [if_pos hc] at h
      injection h with h
      rw [← h]
      exact ⟨rfl, rfl⟩
    · rw [if_neg hc] at h
      simp at h
  | cons d rest ih =>
    intro cfg sz b n b' h p
    unfold placeMinesLoop at h
    by_cases hc : cfg.mines ≤ n
    · rw [if_pos hc] at h
      injection h with h
      rw [← h]
      exact ⟨rfl, rfl⟩
    · rw [if_neg hc] at h
      by_cases he : (cellAt b d.1 d.2).isMine = false ∧ d ∉ sz
      · rw [if_pos he] at h
        have hres := ih cfg sz (placeMineAt b cfg d.1 d.2) (n + 1) b' h p
        rw [revAt_placeMineAt, flagAt_placeMineAt] at hres
        exact hres
      · rw [if_neg he] at h
        exact ih cfg sz b n b' h p

theorem noRevFlag_placeMines {b : Board} {cfg : BoardConfig} {fx fy : Nat}
    {draws : List (Nat × Nat)} {b' : Board}
    (h : placeMines b cfg fx fy draws = some b') (hinv : noRevFlag b) :
    noRevFlag b' := by
  unfold placeMines at h
  intro p
  have hp := placeMinesLoop_revFlag draws cfg
    (boxCoords cfg.rows cfg.columns fx fy) b 0 b' h p
  rcases hinv p with hr | hf
  · left
    rw [hp.1]
    exact hr
  · right
    rw [hp.2]
    exact hf

/-- C7: in every engine state reachable from a freshly constructed engine by
clicks, flags, difficulty changes and resets with in-bounds coordinates, no
board cell is simultaneously revealed and flagged. -/
theorem C7_no_revealed_flagged (s : GameEngine) (h : Reachable s) :
    noRevFlag s.board := by
  induction h with
  | init d cc => exact fun p => Or.inl (revAt_initializeBoard (getConfig d cc) p)
  | click x y draws r s' hreach hgrid heq ih =>
    rename_i s1
    unfold handleCellClick at heq
    by_cases hg : s1.gameStatus = GameStatus.won ∨ s1.gameStatus = GameStatus.lost ∨
        (cellAt s1.board x y).isFlagged = true
    · rw [if_pos hg] at heq
      simp only [Option.some.injEq] at heq
      have hs : s1 = s' := congrArg Prod.snd heq
      rw [← hs]
      exact ih
    · rw [if_neg hg] at heq
      have hflag : (cellAt s1.board x y).isFlagged = false := by
        rcases Bool.eq_false_or_eq_true (cellAt s1.board x y).isFlagged with hf | hf
        · exact absurd (Or.inr (Or.inr hf)) hg
        · exact hf
      by_cases hfc : s1.isFirstClick = true
      · rw [if_pos hfc] at heq
        rw [Option.map_eq_some'] at heq
        obtain ⟨b1, hb1, heq2⟩ := heq
        have hs : ({ s1 with
            board := b1, isFirstClick := false,
            gameStatus := if checkWinCondition b1 = true then GameStatus.won
              else GameStatus.playing } : GameEngine) = s' :=
          congrArg Prod.snd heq2
        rw [← hs]
        show noRevFlag b1
        unfold handleFirstClick at hb1
        rw [Option.map_eq_some'] at hb1
        obtain ⟨b0, hb0, hb0e⟩ := hb1
        rw [← hb0e]
        exact noRevFlag_revealCellF (unrevealedCount b0 + 1) b0 x y
          (noRevFlag_placeMines hb0 ih)
      · rw [if_neg hfc] at heq
        by_cases hmine : (cellAt s1.board x y).isMine = true
        · rw [if_pos hmine] at heq
          simp only [Option.some.injEq] at heq
          have hs : ({ s1 with
              board := revealMine s1.board x y,
              gameStatus := GameStatus.lost } : GameEngine) = s' :=
            congrArg Prod.snd heq
          rw [← hs]
          show noRevFlag (revealMine s1.board x y)
          exact noRevFlag_updateRev ih hflag
        · rw [if_neg hmine] at heq
          simp only [Option.some.injEq] at heq
          have hs : ({ s1 with
              board := revealCell s1.board x y,
              gameStatus := if checkWinCondition (revealCell s1.board x y) = true then
                GameStatus.won else s1.gameStatus } : GameEngine) = s' :=
            congrArg Prod.snd heq
          rw [← hs]
          show noRevFlag (revealCell s1.board x y)
          exact noRevFlag_revealCellF (unrevealedCount s1.board + 1) s1.board x y ih
  | flag x y hreach hgrid ih =>
    rename_i s1
    unfold handleCellFlag
    by_cases hg : s1.gameStatus = GameStatus.won ∨ s1.gameStatus = GameStatus.lost ∨
        (cellAt s1.board x y).isRevealed = true
    · rw [if_pos hg]
      exact ih
    · rw [if_neg hg]
      show noRevFlag (toggleFlag s1.board x y)
      exact noRevFlag_toggleFlag ih
  | diff d cc hreach ih => exact ih
  | reset hreach ih =>
    rename_i s1
    exact fun p => Or.inl (revAt_initializeBoard
      (getConfig s1.difficulty s1.customConfig) p)

/-- Witness for C7 at a concrete reachable state: a freshly constructed custom
engine. -/
theorem C7_witness : noRevFlag engine15.board :=
  C7_no_revealed_flagged engine15
    (Reachable.init Difficulty.custom (some { rows := 1, columns := 5, mines := 1 }))

end Minesweeper
